import Mathlib

/-!
Verification of pgtoolkit's configuration-value coder, `postgresql.conf`
parser/editor and `.pgpass` precision sort, as a shallow embedding of the
Python sources (`pgtoolkit/conf.py`, `pgtoolkit/pgpass.py`,
`pgtoolkit/errors.py`).

Python strings are modelled as `List Char` (`PyStr`).  Python `int` is `Int`,
`datetime.timedelta` is a total count of microseconds (Python normalizes a
timedelta to `(days, 0 ≤ seconds < 86400, 0 ≤ microseconds < 10^6)`, which is
exactly floor division/modulus of that count).  Python floats are kept as the
raw accepted token: the IEEE-754 value and its shortest-repr printing are not
modelled (floating point); no theorem below depends on the float case.
Fallible Python code (raise/except) is modelled with `Except`.
-/

namespace PgToolkit

/-- Python strings, as lists of unicode code points. -/
abbrev PyStr := List Char

def pstr (s : String) : PyStr := s.toList

/-- The single-quote character (code point 39). -/
def qc : Char := Char.ofNat 39

/-- The backslash character (code point 92). -/
def bs : Char := Char.ofNat 92

/-- Python `str.strip()` whitespace (ASCII part; the sources only ever meet
ASCII whitespace).  This is also the character class of `\s` in the `re`
patterns of `conf.py`. -/
def isPyWs (c : Char) : Bool :=
  c = ' ' || c = '\t' || c = '\n' || c = '\r' || c = Char.ofNat 11 || c = Char.ofNat 12

def lstripWs (s : PyStr) : PyStr := s.dropWhile isPyWs

def rstripWs (s : PyStr) : PyStr := (s.reverse.dropWhile isPyWs).reverse

/-- Python `s.strip()`. -/
def pyStrip (s : PyStr) : PyStr := rstripWs (lstripWs s)

/-- Python `s.lstrip("#")`. -/
def lstripHash (s : PyStr) : PyStr := s.dropWhile (· = '#')

/-- Helper for `pyReplace`: replace every (left-to-right, non-overlapping)
occurrence of `old` by `new`; `old` is non-empty here.  A positive `skip`
means that many characters of a just-replaced occurrence remain to be
consumed (this keeps the recursion structural on the string). -/
def replaceGo (old new : PyStr) : PyStr → Nat → PyStr
  | [], _ => []
  | _ :: rest, skip + 1 => replaceGo old new rest skip
  | c :: rest, 0 =>
    if old.isPrefixOf (c :: rest) then new ++ replaceGo old new rest (old.length - 1)
    else c :: replaceGo old new rest 0

/-- Python `s.replace(old, new)`.  The sources only call it with non-empty
`old` ("''", "\\'", "'", ":", "\\"); the empty-`old` case of Python (which
interleaves `new` everywhere) is irrelevant and modelled as the identity. -/
def pyReplace (s old new : PyStr) : PyStr :=
  match old with
  | [] => s
  | _ :: _ => replaceGo old new s 0

/-- Python `pat in s` (contiguous substring test). -/
def hasSub (pat : PyStr) : PyStr → Bool
  | [] => pat.isPrefixOf []
  | c :: rest => pat.isPrefixOf (c :: rest) || hasSub pat rest

def digitVal (c : Char) : Nat := c.toNat - 48

/-- Digit run continuation for Python number literals: digits with single
underscores allowed between digits. -/
def digitsLoopU (acc : Nat) : PyStr → Option Nat
  | [] => some acc
  | c :: rest =>
    if c = '_' then
      match rest with
      | c2 :: rest2 =>
        if c2.isDigit then digitsLoopU (acc * 10 + digitVal c2) rest2 else none
      | [] => none
    else if c.isDigit then digitsLoopU (acc * 10 + digitVal c) rest else none

/-- A non-empty underscore-grouped digit run, as accepted by Python `int`. -/
def parseNatU : PyStr → Option Nat
  | [] => none
  | c :: rest => if c.isDigit then digitsLoopU (digitVal c) rest else none

/-- Python `int(s)` (base 10): optional surrounding whitespace, optional
sign, underscore-grouped decimal digits.  (Non-ASCII unicode digits are not
modelled; no token in the sources or claims contains any.) -/
def pyIntOf (s : PyStr) : Option Int :=
  match pyStrip s with
  | [] => none
  | c :: r =>
    if c = '+' then (parseNatU r).map Int.ofNat
    else if c = '-' then (parseNatU r).map (fun n => -(n : Int))
    else (parseNatU (c :: r)).map Int.ofNat

def isOctC (c : Char) : Bool := '0' ≤ c && c ≤ '7'

def octLoopU : PyStr → Bool
  | [] => true
  | c :: rest =>
    if c = '_' then
      match rest with
      | c2 :: rest2 => isOctC c2 && octLoopU rest2
      | [] => false
    else isOctC c && octLoopU rest

def octRun : PyStr → Bool
  | [] => false
  | c :: rest => isOctC c && octLoopU rest

def dropSign : PyStr → PyStr
  | [] => []
  | c :: r => if c = '+' || c = '-' then r else c :: r

/-- Whether Python `int(s, base=8)` succeeds: optional whitespace and sign,
optional `0o`/`0O` prefix (which may be followed by one underscore), then an
underscore-grouped octal digit run. -/
def pyOct8 (s : PyStr) : Bool :=
  let t := dropSign (pyStrip s)
  match t with
  | '0' :: 'o' :: r | '0' :: 'O' :: r =>
    (match r with
     | '_' :: r2 => octRun r2
     | r2 => octRun r2)
  | r => octRun r

def digitsUCont : PyStr → PyStr
  | [] => []
  | c :: rest =>
    if c = '_' then
      match rest with
      | c2 :: rest2 => if c2.isDigit then digitsUCont rest2 else c :: rest
      | [] => c :: rest
    else if c.isDigit then digitsUCont rest else c :: rest

/-- After a `.`, an optional digit run (Python float fraction part). -/
def fracOpt (r : PyStr) : PyStr :=
  match r with
  | d :: rest => if d.isDigit then digitsUCont rest else r
  | [] => []

/-- Mantissa of a Python float literal; returns the remaining input. -/
def mantissaRest (s : PyStr) : Option PyStr :=
  match s with
  | '.' :: r =>
    (match r with
     | d :: rest => if d.isDigit then some (digitsUCont rest) else none
     | [] => none)
  | c :: rest =>
    if c.isDigit then
      let r := digitsUCont rest
      match r with
      | '.' :: r2 => some (fracOpt r2)
      | _ => some r
    else none
  | [] => none

/-- Optional exponent of a Python float literal; returns the remaining input. -/
def expRest (s : PyStr) : Option PyStr :=
  match s with
  | e :: rest =>
    if e = 'e' || e = 'E' then
      let rest2 := dropSign rest
      match rest2 with
      | d :: r3 => if d.isDigit then some (digitsUCont r3) else none
      | [] => none
    else some (e :: rest)
  | [] => some []

def floatWordOk (t : PyStr) : Bool :=
  let l := t.map Char.toLower
  l = pstr "inf" || l = pstr "infinity" || l = pstr "nan"

/-- Whether Python `float(s)` succeeds. -/
def pyFloatOk (s : PyStr) : Bool :=
  let t := dropSign (pyStrip s)
  if floatWordOk t then true
  else
    match mantissaRest t with
    | none => false
    | some r =>
      match expRest r with
      | none => false
      | some r2 => r2 = []

/-- Python `datetime.timedelta`, as its total microsecond count.  The Python
attributes `days`, `seconds`, `microseconds` are the floor-division
normalization of this count. -/
structure TimeDelta where
  usec : Int
deriving DecidableEq

def TimeDelta.days (t : TimeDelta) : Int := t.usec.fdiv 86400000000

def TimeDelta.seconds (t : TimeDelta) : Int := (t.usec.fmod 86400000000).fdiv 1000000

def TimeDelta.microseconds (t : TimeDelta) : Int := t.usec.fmod 1000000

/-- The `Value` union of `conf.py`:
`Value = Union[str, bool, float, int, timedelta]`.  The `float` constructor
keeps the accepted raw token (see module comment). -/
inductive Value where
  | str (s : PyStr)
  | bool (b : Bool)
  | int (n : Int)
  | float (tok : PyStr)
  | td (t : TimeDelta)
deriving DecidableEq

/-- Error taxonomy of the modelled code paths (`errors.py` and the builtin
exceptions raised by `conf.py`/`pgpass.py`).  `fuelExhausted` is a modelling
artifact of the fuelled include-resolution walk, never produced with enough
fuel. -/
inductive PyErr where
  | valueError (msg : PyStr)
  | parseError (lineno : Nat) (line : PyStr) (message : PyStr)
  | fileNotFound (msg : PyStr)
  | runtimeError (msg : PyStr)
  | assertionError
  | isADirectory
  | fuelExhausted
deriving DecidableEq

/-- The `[kMGT]B\s*$` tail of `_memory_re`. -/
def memUnitTail : PyStr → Bool
  | u :: 'B' :: rest => (u = 'k' || u = 'M' || u = 'G' || u = 'T') && rest.all isPyWs
  | _ => false

/-- `_memory_re = ^\s*(?P<number>\d+)\s*(?P<unit>[kMGT]B)\s*$`. -/
def memMatchB (s : PyStr) : Bool :=
  let t := lstripWs s
  let ds := t.takeWhile Char.isDigit
  if ds = [] then false
  else memUnitTail (lstripWs (t.dropWhile Char.isDigit))

/-- The timedelta units of `_timedelta_re` (in alternation order `ms|s|min|h|d`)
with their microsecond multiplier (via `TIMEDELTA_ARGNAME` and the
corresponding `timedelta(...)` keyword argument). -/
def tdUnits : List (PyStr × Int) :=
  [(pstr "ms", 1000), (pstr "s", 1000000), (pstr "min", 60000000),
   (pstr "h", 3600000000), (pstr "d", 86400000000)]

def tdFindGo : List (PyStr × Int) → PyStr → Option Int
  | [], _ => none
  | (u, m) :: us, r =>
    if u.isPrefixOf r && (r.drop u.length).all isPyWs then some m else tdFindGo us r

/-- `_timedelta_re = ^\s*(?P<number>\d+)\s*(?P<unit>ms|s|min|h|d)\s*$`,
returning the number and the unit multiplier in microseconds. -/
def tdMatchB (s : PyStr) : Option (Nat × Int) :=
  let t := lstripWs s
  let ds := t.takeWhile Char.isDigit
  if ds = [] then none
  else
    match tdFindGo tdUnits (lstripWs (t.dropWhile Char.isDigit)) with
    | some m => (parseNatU ds).map (fun n => (n, m))
    | none => none

/-- The part of `parse_value` after the unquoting step. -/
def postQuote (raw : PyStr) : Value :=
  if ['0'].isPrefixOf raw && raw ≠ ['0'] && pyOct8 raw then Value.str raw
  else if memMatchB raw then Value.str (pyStrip raw)
  else
    match tdMatchB raw with
    | some (n, m) => Value.td ⟨(n : Int) * m⟩
    | none =>
      if raw = pstr "true" || raw = pstr "yes" || raw = pstr "on" then Value.bool true
      else if raw = pstr "false" || raw = pstr "no" || raw = pstr "off" then Value.bool false
      else
        match pyIntOf raw with
        | some n => Value.int n
        | none => if pyFloatOk raw then Value.float raw else Value.str raw

/-- `raw[1:-1].replace("''", "'").replace("\\'", "'")`. -/
def unquoteUnescape (raw : PyStr) : PyStr :=
  pyReplace (pyReplace (raw.drop 1).dropLast [qc, qc] [qc]) [bs, qc] [qc]

/-- `pgtoolkit.conf.parse_value`. -/
def parse_value (raw : PyStr) : Except PyErr Value :=
  if [qc].isPrefixOf raw then
    if [qc].isSuffixOf raw then .ok (postQuote (unquoteUnescape raw))
    else .error (.valueError raw)
  else .ok (postQuote raw)

/-- Little-endian base-10 digits with explicit fuel (`fuel ≥ n` suffices). -/
def natDigitsAux : Nat → Nat → List Nat
  | 0, _ => []
  | fuel + 1, n => if n = 0 then [] else n % 10 :: natDigitsAux fuel (n / 10)

def digChar (d : Nat) : Char := Char.ofNat (48 + d)

/-- Python `str(n)` for a natural number. -/
def natRepr (n : Nat) : PyStr :=
  if n = 0 then ['0'] else ((natDigitsAux n n).reverse).map digChar

/-- Python `str(n)` for an `int`. -/
def intRepr (n : Int) : PyStr :=
  if n < 0 then '-' :: natRepr n.natAbs else natRepr n.toNat

/-- `Entry._timedelta_unit_map` (serialization side). -/
def tdUnitMap : List (PyStr × Int) :=
  [(pstr "d", 86400), (pstr "h", 3600), (pstr " min", 60), (pstr "s", 1)]

/-- First unit whose modulus divides `secs` exactly, with the quotient
(`Entry.serialize`'s loop; the `"s"` entry always matches, so the fallback is
unreachable). -/
def tdPickGo : List (PyStr × Int) → Int → PyStr × Int
  | [], secs => (pstr "s", secs)
  | (u, m) :: us, secs => if secs.fmod m ≠ 0 then tdPickGo us secs else (u, secs.fdiv m)

/-- `pgtoolkit.conf.Entry.serialize`, as a function of the entry's value. -/
def serializeValue : Value → PyStr
  | .bool b => if b then pstr "on" else pstr "off"
  | .str v =>
    if [qc].isPrefixOf v && [qc].isSuffixOf v then v
    else
      let v2 := if hasSub [qc, qc] v || hasSub [bs, qc] v then v else pyReplace v [qc] [qc, qc]
      [qc] ++ v2 ++ [qc]
  | .td t =>
    let secs := t.days * 86400 + t.seconds
    if t.microseconds ≠ 0 then
      [qc] ++ intRepr (secs * 1000 + t.microseconds.fdiv 1000) ++ pstr " ms" ++ [qc]
    else
      let p := tdPickGo tdUnitMap secs
      [qc] ++ intRepr p.2 ++ p.1 ++ [qc]
  | .int n => intRepr n
  | .float tok => tok

/-- The value domain on which `serialize`/`parse_value` provably round-trips:
booleans and integers always; timedeltas that are nonnegative whole
milliseconds; strings that are fixed points of the post-quote decoder and
survive the quote/escape cycle (not already quote-wrapped, no embedded
doubled quote or backslash-quote).  Floats are excluded: the model keeps
their raw token (see module comment), so nothing is claimed about them. -/
def roundTrippable : Value → Prop
  | .str v =>
    ([qc].isPrefixOf v && [qc].isSuffixOf v) = false ∧
    hasSub [qc, qc] v = false ∧ hasSub [bs, qc] v = false ∧
    postQuote v = Value.str v
  | .bool _ => True
  | .int _ => True
  | .float _ => False
  | .td t => 0 ≤ t.usec ∧ t.usec % 1000 = 0

instance {α β : Type} [DecidableEq α] [DecidableEq β] : DecidableEq (Except α β) :=
  fun a b =>
    match a, b with
    | .ok x, .ok y => if h : x = y then isTrue (by rw [h]) else isFalse (by simp [h])
    | .error x, .error y => if h : x = y then isTrue (by rw [h]) else isFalse (by simp [h])
    | .ok _, .error _ => isFalse (by simp)
    | .error _, .ok _ => isFalse (by simp)

/-! ## The `postgresql.conf` line model (`Configuration`, `Entry`) -/

/-- `pgtoolkit.conf.Entry` (the `raw_line` position tracker included). -/
structure Entry where
  name : PyStr
  value : Value
  commented : Bool
  comment : Option PyStr
  raw_line : PyStr
deriving DecidableEq

/-- `Entry.__str__`: `name = serialized[  # comment]`, `#`-prefixed when the
entry is commented. -/
def entrySerLine (e : Entry) : PyStr :=
  let line := e.name ++ pstr " = " ++ serializeValue e.value
  let line :=
    match e.comment with
    | some c => line ++ pstr "  # " ++ c
    | none => line
  if e.commented then '#' :: line else line

/-- `Entry.__eq__` compares name, value, comment and commented flag, ignoring
`raw_line`. -/
def Entry.pyEq (a b : Entry) : Bool :=
  a.name = b.name && a.value = b.value && a.comment = b.comment && a.commented = b.commented

/-- `Entry.__init__`: a `str` value is passed through `parse_value` (which can
raise); a missing `raw_line` defaults to `str(self) + "\n"`. -/
def entryInit (name : PyStr) (value : Value) (commented : Bool) (comment : Option PyStr)
    (raw_line : Option PyStr) : Except PyErr Entry := do
  let v ←
    match value with
    | .str s => parse_value s
    | v => pure v
  let e0 : Entry := ⟨name, v, commented, comment, []⟩
  let rl :=
    match raw_line with
    | some r => r
    | none => entrySerLine e0 ++ ['\n']
  pure { e0 with raw_line := rl }

/-- `pgtoolkit.conf.Configuration`: the verbatim line list, the ordered
entries dict and the context path. -/
structure Configuration where
  lines : List PyStr
  entries : List (PyStr × Entry)
  path : Option PyStr
deriving DecidableEq

def emptyConf (path : Option PyStr := none) : Configuration := ⟨[], [], path⟩

/-- Python dict lookup on an insertion-ordered association list. -/
def dictGet? {V : Type} : List (PyStr × V) → PyStr → Option V
  | [], _ => none
  | (k2, v) :: rest, k => if k2 = k then some v else dictGet? rest k

/-- Python dict assignment: an existing key keeps its position, a new key is
appended. -/
def dictSet {V : Type} : List (PyStr × V) → PyStr → V → List (PyStr × V)
  | [], k, v => [(k, v)]
  | (k2, v2) :: rest, k, v =>
    if k2 = k then (k2, v) :: rest else (k2, v2) :: dictSet rest k v

/-- Python `del d[k]`. -/
def dictDel {V : Type} : List (PyStr × V) → PyStr → List (PyStr × V)
  | [], _ => []
  | (k2, v2) :: rest, k => if k2 = k then rest else (k2, v2) :: dictDel rest k

/-- Python `d.update(other)`. -/
def dictUpdate {V : Type} (m other : List (PyStr × V)) : List (PyStr × V) :=
  other.foldl (fun acc p => dictSet acc p.1 p.2) m

/-- `conf.IncludeType`. -/
inductive IncludeType where
  | include_dir
  | include_if_exists
  | include
deriving DecidableEq

/-- `name in IncludeType.__members__` together with `IncludeType[name]`. -/
def includeName? (n : PyStr) : Option IncludeType :=
  if n = pstr "include_dir" then some .include_dir
  else if n = pstr "include_if_exists" then some .include_if_exists
  else if n = pstr "include" then some .include
  else none

/-- One escaped character of Python `repr` of a string (printable ASCII plus
the control characters the sources can meet). -/
def pyReprCIn (delim c : Char) : PyStr :=
  if c = bs then [bs, bs]
  else if c = delim then [bs, delim]
  else if c = '\n' then [bs, 'n']
  else if c = '\t' then [bs, 't']
  else if c = '\r' then [bs, 'r']
  else [c]

/-- Python `repr` of a string: single-quoted, double-quoted when the text has
a single quote but no double quote. -/
def pyRepr (s : PyStr) : PyStr :=
  let d := if s.contains qc && !s.contains '"' then '"' else qc
  d :: (s.map (pyReprCIn d)).flatten ++ [d]

/-! The `_parameter_re` regex
`^(?P<name>[a-z_.]+)(?: +(?!=)| *= *)(?P<value>.*?)[\s\t]*(?P<comment>#.*)?$`
is embedded by direct analysis of Python's backtracking order.  The name run
is deterministic (name characters, `' '` and `'='` are disjoint).  The first
alternative `' +(?!=)'` is tried with as many spaces as possible, backing off
one space when the lookahead sees `'='`; only a single space directly followed
by `'='` (or no space) reaches the `' *= *'` alternative.  The lazy
`(?P<value>.*?)[\s\t]*(?P<comment>#.*)?$` tail always matches, at the first
split point whose remainder is whitespace followed by an optional
`#`-comment. -/

def isNameC (c : Char) : Bool := ('a' ≤ c && c ≤ 'z') || c = '_' || c = '.'

structure PMatch where
  name : PyStr
  value : PyStr
  comment : Option PyStr
deriving DecidableEq

/-- Whether `[\s\t]*(#.*)?$` matches the remainder `r`. -/
def tailOk (r : PyStr) : Bool :=
  let t := r.dropWhile isPyWs
  t = [] || t.head? = some '#'

def commentOf (r : PyStr) : Option PyStr :=
  let t := r.dropWhile isPyWs
  if t.head? = some '#' then some t else none

/-- Lazy value/comment split of the regex tail. -/
def vcSplit : PyStr → PyStr × Option PyStr
  | [] => ([], none)
  | c :: rest =>
    if tailOk (c :: rest) then ([], commentOf (c :: rest))
    else
      let p := vcSplit rest
      (c :: p.1, p.2)

/-- The separator group `(?: +(?!=)| *= *)`; returns the remainder that the
value/comment tail starts from. -/
def sepSplit (rest : PyStr) : Option PyStr :=
  let s := (rest.takeWhile (· = ' ')).length
  let after := rest.drop s
  if s ≥ 1 then
    match after with
    | '=' :: after2 =>
      if s = 1 then some (after2.dropWhile (· = ' '))
      else some (rest.drop (s - 1))
    | _ => some after
  else
    match after with
    | '=' :: after2 => some (after2.dropWhile (· = ' '))
    | _ => none

/-- `Configuration._parameter_re.match(line)`. -/
def paramMatch (line : PyStr) : Option PMatch :=
  let name := line.takeWhile isNameC
  if name = [] then none
  else
    match sepSplit (line.drop name.length) with
    | none => none
    | some rest =>
      let p := vcSplit rest
      some ⟨name, p.1, p.2⟩

/-- The body shared by the commented and uncommented branches of
`Configuration.parse`, after the regex matched. -/
def lineStepProcess (conf : Configuration) (raw_line : PyStr) (m : PMatch)
    (commented : Bool) : Except PyErr (Configuration × Option (PyStr × IncludeType)) := do
  let value ← parse_value m.value
  match includeName? m.name with
  | some ty =>
    if commented then pure (conf, none)
    else
      match value with
      | .str s => pure (conf, some (s, ty))
      | _ => .error .assertionError
  | none =>
    let comment := m.comment.map (fun c => lstripWs (lstripHash c))
    let skip := commented &&
      (match dictGet? conf.entries m.name with
       | some e => !e.commented
       | none => false)
    if skip then pure (conf, none)
    else do
      let e ← entryInit m.name value commented comment (some raw_line)
      pure ({ conf with entries := dictSet conf.entries m.name e }, none)

/-- One iteration of the `for raw_line in fo` loop of `Configuration.parse`:
append the raw line, skip blanks, route `#` lines through the
commented-candidate logic, and reject unmatched uncommented lines with
`ValueError("Bad line: %r." % raw_line)`. -/
def lineStep (conf : Configuration) (raw_line : PyStr) :
    Except PyErr (Configuration × Option (PyStr × IncludeType)) :=
  let conf := { conf with lines := conf.lines ++ [raw_line] }
  let line := pyStrip raw_line
  if line = [] then .ok (conf, none)
  else if line.head? = some '#' then
    if !line.contains '=' then .ok (conf, none)
    else
      match paramMatch (lstripWs (lstripHash line)) with
      | none => .ok (conf, none)
      | some m => lineStepProcess conf raw_line m true
  else
    match paramMatch line with
    | none => .error (.valueError (pstr "Bad line: " ++ pyRepr raw_line ++ pstr "."))
    | some m => lineStepProcess conf raw_line m false

/-- `Configuration.parse` over an in-memory line sequence, collecting the
yielded include directives (none are acted on here, exactly like parsing a
list or string in Python). -/
def confParseLines (conf : Configuration) :
    List PyStr → Except PyErr (Configuration × List (PyStr × IncludeType))
  | [] => .ok (conf, [])
  | l :: rest => do
    let s ← lineStep conf l
    let r ← confParseLines s.1 rest
    pure (r.1, (match s.2 with | some i => i :: r.2 | none => r.2))

/-- `Configuration.as_dict()`. -/
def asDict (conf : Configuration) : List (PyStr × Value) :=
  (conf.entries.filter (fun p => !p.2.commented)).map (fun p => (p.1, p.2.value))

/-- `Configuration.__getitem__` (KeyError as `none`). -/
def confGetItem (conf : Configuration) (k : PyStr) : Option Value :=
  (dictGet? conf.entries k).map Entry.value

/-- `Configuration.__getattr__` delegates to `__getitem__`, re-raising
`KeyError` as `AttributeError`; with exceptions modelled by `none` the two
coincide. -/
def confGetAttr (conf : Configuration) (k : PyStr) : Option Value :=
  confGetItem conf k

/-- `Configuration.save` writes `self.lines` verbatim. -/
def confSave (conf : Configuration) : PyStr := conf.lines.flatten

/-- `Configuration._add_entry`. -/
def addEntry (conf : Configuration) (e : Entry) : Configuration :=
  let rl := entrySerLine e ++ ['\n']
  let e2 := { e with raw_line := rl }
  { conf with entries := dictSet conf.entries e2.name e2, lines := conf.lines ++ [rl] }

/-- Python `list.remove`: drop the first occurrence, `none` when absent. -/
def removeFirst? (x : PyStr) : List PyStr → Option (List PyStr)
  | [] => none
  | y :: rest => if y = x then some rest else (removeFirst? x rest).map (y :: ·)

/-- `Configuration._update_entry` for a present key: swap the dict slot,
uncomment if the old entry was commented, re-serialize the raw line and splice
it over the old line's position (a missing old line raises `ValueError` from
`list.index`, leaving the entries dict already updated). -/
def updateEntry (conf : Configuration) (old e : Entry) : Configuration × Option PyErr :=
  let e2 := { e with commented := if old.commented then false else e.commented }
  let rl := entrySerLine e2 ++ ['\n']
  let e3 := { e2 with raw_line := rl }
  let conf2 := { conf with entries := dictSet conf.entries e3.name e3 }
  match conf2.lines.findIdx? (· = old.raw_line) with
  | none => (conf2, some (.valueError (pstr "x is not in list")))
  | some i =>
    ({ conf2 with lines := conf2.lines.take i ++ [rl] ++ conf2.lines.drop (i + 1) }, none)

/-- The add/update half of `Configuration.edit`'s reconciliation. -/
def reconcileAdds (conf : Configuration) : List (PyStr × Entry) → Configuration × Option PyErr
  | [] => (conf, none)
  | (k, entry) :: rest =>
    match dictGet? conf.entries k with
    | none => reconcileAdds (addEntry conf entry) rest
    | some old =>
      if Entry.pyEq old entry then reconcileAdds conf rest
      else
        match updateEntry conf old entry with
        | (c2, some err) => (c2, some err)
        | (c2, none) => reconcileAdds c2 rest

/-- The deletion half of `Configuration.edit`'s reconciliation (iterating a
snapshot of the entries, like `list(self.entries.items())`). -/
def reconcileDelsGo (conf : Configuration) (proxyKeys : List PyStr) :
    List (PyStr × Entry) → Configuration × Option PyErr
  | [] => (conf, none)
  | (k, entry) :: rest =>
    if proxyKeys.contains k then reconcileDelsGo conf proxyKeys rest
    else
      let c2 := { conf with entries := dictDel conf.entries k }
      match removeFirst? entry.raw_line c2.lines with
      | none => (c2, some (.valueError (pstr "list.remove(x): x not in list")))
      | some ls => reconcileDelsGo { c2 with lines := ls } proxyKeys rest

def reconcile (conf : Configuration) (proxy : List (PyStr × Entry)) :
    Configuration × Option PyErr :=
  match reconcileAdds conf proxy with
  | (c2, some e) => (c2, some e)
  | (c2, none) => reconcileDelsGo c2 (proxy.map Prod.fst) c2.entries

/-- `Configuration.edit`: the proxy is a per-entry copy of the entries dict;
an exception from the body is re-raised with the configuration untouched,
otherwise the final proxy is reconciled into the configuration. -/
def confEdit (conf : Configuration)
    (body : List (PyStr × Entry) → Except PyErr (List (PyStr × Entry))) :
    Configuration × Option PyErr :=
  match body conf.entries with
  | .error e => (conf, some e)
  | .ok proxy => reconcile conf proxy

/-! ## Include resolution (`parse` and `parse_include`)

The filesystem is a finite map from absolute paths to file contents plus a
finite map from directory paths to their `sorted(path.glob("*.conf"))`
listing.  The recursion of `parse_include` (directive → directory members →
included file lines → nested directives) is driven by an explicit fuel that
decreases on every step, so the function is structurally total; `Nat` fuel
exhaustion surfaces as the artificial `PyErr.fuelExhausted`, and the include
theorems show the real results are reached with any sufficient fuel. -/

structure FS where
  files : List (PyStr × List PyStr)
  dirs : List (PyStr × List PyStr)
deriving DecidableEq

def fsFile? (fs : FS) (p : PyStr) : Option (List PyStr) := dictGet? fs.files p

def fsDir? (fs : FS) (p : PyStr) : Option (List PyStr) := dictGet? fs.dirs p

def fsIsFile (fs : FS) (p : PyStr) : Bool := (fsFile? fs p).isSome

def fsIsDir (fs : FS) (p : PyStr) : Bool := (fsDir? fs p).isSome

def fsExists (fs : FS) (p : PyStr) : Bool := fsIsFile fs p || fsIsDir fs p

def baseName (p : PyStr) : PyStr := (p.reverse.takeWhile (· ≠ '/')).reverse

def parentPath (p : PyStr) : PyStr :=
  let t := (p.reverse.dropWhile (· ≠ '/')).reverse
  if t.length ≤ 1 then t else t.dropLast

def isAbsPath (p : PyStr) : Bool := p.head? = some '/'

/-- Relative include paths resolve against the directory of the referencing
file (`parse_include`'s `relative_to` logic). -/
def resolveInc (fs : FS) (fromPath p : PyStr) : PyStr :=
  if isAbsPath p then p
  else
    let rel := if fsIsFile fs fromPath then parentPath fromPath else fromPath
    rel ++ '/' :: p

/-- `f"{include_type} '{path}', included from '{reference_path}', not found"`. -/
def notFoundMsg (kind path ref : PyStr) : PyStr :=
  kind ++ [' ', qc] ++ path ++ [qc] ++ pstr ", included from " ++ [qc] ++ ref ++ [qc] ++
    pstr ", not found"

/-- `f"loop detected in include directive about '{path}'"`. -/
def loopMsg (path : PyStr) : PyStr :=
  pstr "loop detected in include directive about " ++ [qc] ++ path ++ [qc]

/-- The work items of the `parse_include` recursion: one directive, the
remaining `*.conf` members of an `include_dir`, or the remaining lines of an
included file being parsed into its own sub-`Configuration`. -/
inductive IncTask where
  | directive (path : PyStr) (ty : IncludeType)
  | dirMembers (members : List PyStr)
  | fileLines (lines : List PyStr)

/-- `parse_include` (with, for `fileLines`, the lazy generator interleaving of
`Configuration.parse`: a nested directive is resolved before the following
lines are parsed).  `ctxPath` is the `from_path` of a directive / member list,
and the included file's own path while its lines are parsed.  `processed` is
the `_processed` visited set, threaded through the whole walk. -/
def parseIncGo (fs : FS) : Nat → Configuration → IncTask → PyStr → List PyStr →
    Except PyErr (Configuration × List PyStr)
  | 0, _, _, _, _ => .error .fuelExhausted
  | fuel + 1, conf, .directive path0 ty, ctxPath, processed =>
    let path := resolveInc fs ctxPath path0
    (match ty with
     | .include_dir =>
       if !(fsExists fs path) || !(fsIsDir fs path) then
         .error (.fileNotFound (notFoundMsg (pstr "directory") path ctxPath))
       else
         parseIncGo fs fuel conf
           (.dirMembers (((fsDir? fs path).getD []).filter
             (fun m => (baseName m).head? ≠ some '.')))
           ctxPath processed
     | .include_if_exists =>
       if fsExists fs path then
         parseIncGo fs fuel conf (.directive path .include) ctxPath processed
       else .ok (conf, processed)
     | .include =>
       if !(fsExists fs path) then
         .error (.fileNotFound (notFoundMsg (pstr "file") path ctxPath))
       else if processed.contains path then .error (.runtimeError (loopMsg path))
       else
         match fsFile? fs path with
         | none => .error .isADirectory
         | some content => do
           let r ← parseIncGo fs fuel (emptyConf (some path)) (.fileLines content) path
             (path :: processed)
           pure ({ conf with entries := dictUpdate conf.entries r.1.entries }, r.2))
  | _ + 1, conf, .dirMembers [], _, processed => .ok (conf, processed)
  | fuel + 1, conf, .dirMembers (m :: ms), ctxPath, processed => do
    let r ← parseIncGo fs fuel conf (.directive m .include) ctxPath processed
    parseIncGo fs fuel r.1 (.dirMembers ms) ctxPath r.2
  | _ + 1, conf, .fileLines [], _, processed => .ok (conf, processed)
  | fuel + 1, conf, .fileLines (l :: rest), selfPath, processed => do
    let s ← lineStep conf l
    match s.2 with
    | none => parseIncGo fs fuel s.1 (.fileLines rest) selfPath processed
    | some (p, ty) => do
      let r ← parseIncGo fs fuel s.1 (.directive p ty) selfPath processed
      parseIncGo fs fuel r.1 (.fileLines rest) selfPath r.2

/-- The `consume` loop of top-level `parse(fo)` over the top file's lines:
each directive is handed to `parse_include` with a fresh `_processed` set,
and included entries land in this very configuration while its own line list
keeps growing. -/
def parseTopLines (fs : FS) : Nat → Configuration → List PyStr → PyStr →
    Except PyErr Configuration
  | 0, _, _, _ => .error .fuelExhausted
  | _ + 1, conf, [], _ => .ok conf
  | fuel + 1, conf, l :: rest, topPath => do
    let s ← lineStep conf l
    match s.2 with
    | none => parseTopLines fs fuel s.1 rest topPath
    | some (p, ty) => do
      let r ← parseIncGo fs fuel s.1 (.directive p ty) topPath []
      parseTopLines fs fuel r.1 rest topPath

/-- `pgtoolkit.conf.parse` on a filesystem path (assumed absolute, matching
`Path(conf.path).absolute()`). -/
def parseConfFile (fs : FS) (fuel : Nat) (path : PyStr) : Except PyErr Configuration :=
  match fsFile? fs path with
  | none => .error (.fileNotFound (pstr "No such file or directory: " ++ [qc] ++ path ++ [qc]))
  | some content => parseTopLines fs fuel (emptyConf (some path)) content path

/-! ## The `.pgpass` model (`pgtoolkit/pgpass.py`) -/

/-- Python `str.__lt__` (lexicographic on code points). -/
def strLtB : PyStr → PyStr → Bool
  | [], [] => false
  | [], _ :: _ => true
  | _ :: _, [] => false
  | x :: xs, y :: ys => if x = y then strLtB xs ys else decide (x < y)

/-- The `port` attribute of a `PassEntry`: an `int` when `PassEntry.parse`
converted a non-`*` field, otherwise a string (`"*"` from parsing, anything
via the constructor). -/
inductive PPort where
  | num (n : Int)
  | str (s : PyStr)
deriving DecidableEq

structure PassEntry where
  hostname : PyStr
  port : PPort
  database : PyStr
  username : PyStr
  password : PyStr
deriving DecidableEq

def portStr : PPort → PyStr
  | .num n => intRepr n
  | .str s => s

/-- `PassEntry.as_tuple()[:-1]`: the four match-relevant fields, the port
rendered with `str`. -/
def asTuple4 (e : PassEntry) : List PyStr := [e.hostname, portStr e.port, e.database, e.username]

def starS : PyStr := ['*']

/-- `chr(0xFF)`, the wildcard sentinel of `PassEntry.sort_key`. -/
def sentinelS : PyStr := [Char.ofNat 255]

/-- Number of wildcard fields among the four match-relevant ones. -/
def precision (e : PassEntry) : Nat := ((asTuple4 e).filter (· = starS)).length

def keyFields (e : PassEntry) : List PyStr :=
  (asTuple4 e).map (fun x => if x = starS then sentinelS else x)

/-- `PassEntry.sort_key()`. -/
def sortKey (e : PassEntry) : Nat × List PyStr := (precision e, keyFields e)

/-- Python list/tuple `<` over same-shape string sequences. -/
def listStrLtB : List PyStr → List PyStr → Bool
  | [], [] => false
  | [], _ :: _ => true
  | _ :: _, [] => false
  | x :: xs, y :: ys => if x = y then listStrLtB xs ys else strLtB x y

/-- Comparison of two `sort_key()` tuples. -/
def keyLtB (a b : Nat × List PyStr) : Bool :=
  if a.1 = b.1 then listStrLtB a.2 b.2 else decide (a.1 < b.1)

/-- `pgpass.unescape(s, delim)`. -/
def pgUnescape (s : PyStr) (delim : Char) : PyStr :=
  pyReplace (pyReplace s [bs, delim] [delim]) [bs, bs] [bs]

/-- `pgpass.escapedsplit`'s scan: `escaped` toggles on a backslash, splits
happen on an unescaped delimiter (and on any other character the flag is left
as it was, exactly like the source). -/
def escSplitGo (delim : Char) : PyStr → Bool → PyStr → List PyStr
  | [], _, acc => [pgUnescape acc delim]
  | c :: rest, esc, acc =>
    if c = bs then escSplitGo delim rest (!esc) (acc ++ [c])
    else if c = delim && !esc then pgUnescape acc delim :: escSplitGo delim rest false []
    else escSplitGo delim rest esc (acc ++ [c])

def escapedSplit (s : PyStr) (delim : Char) : List PyStr := escSplitGo delim s false []

/-- `PassEntry.parse`. -/
def passEntryParse (line : PyStr) : Except PyErr PassEntry :=
  match escapedSplit (pyStrip line) ':' with
  | [h, p, d, u, pw] =>
    if p = starS then .ok ⟨h, .str starS, d, u, pw⟩
    else
      match pyIntOf p with
      | some n => .ok ⟨h, .num n, d, u, pw⟩
      | none => .error (.valueError (pstr "invalid literal for int"))
  | _ => .error (.valueError (pstr "Invalid line."))

/-- `PassComment.comment`: `self.lstrip("#").strip()`. -/
def commentText (c : PyStr) : PyStr := pyStrip (lstripHash c)

/-- `PassComment.entry` (`None` when `PassEntry.parse` raises `ValueError`). -/
def commentEntry? (c : PyStr) : Option PassEntry := (passEntryParse (commentText c)).toOption

/-- One line of a `PassFile`. -/
inductive PassLine where
  | entry (e : PassEntry)
  | comment (s : PyStr)
deriving DecidableEq

/-- Python `==` between `PassFile` lines (`PassEntry.__eq__` compares the
four match fields, converts a comment through `.entry`, and `PassComment`
inherits `str.__eq__`). -/
def passLineEqB : PassLine → PassLine → Bool
  | .entry a, .entry b => decide (asTuple4 a = asTuple4 b)
  | .entry a, .comment c =>
    (match commentEntry? c with
     | some ce => decide (asTuple4 a = asTuple4 ce)
     | none => false)
  | .comment c, .entry b =>
    (match commentEntry? c with
     | some ce => decide (asTuple4 b = asTuple4 ce)
     | none => false)
  | .comment a, .comment b => decide (a = b)

/-- Python `<` between `PassFile` lines: entries compare by `sort_key`, a
comment stands in for its parsed entry when it has one, and two comments never
compare (`PassComment.__lt__` returns `False`). -/
def passLineLtB : PassLine → PassLine → Bool
  | .entry a, .entry b => keyLtB (sortKey a) (sortKey b)
  | .entry a, .comment c =>
    (match commentEntry? c with
     | some ce => keyLtB (sortKey a) (sortKey ce)
     | none => false)
  | .comment c, .entry b =>
    (match commentEntry? c with
     | some ce => keyLtB (sortKey ce) (sortKey b)
     | none => false)
  | .comment _, .comment _ => false

/-- Python `<` on the `(line, comments)` tuples that `PassFile.sort` sorts. -/
def pairLtB (a b : PassLine × List PyStr) : Bool :=
  if passLineEqB a.1 b.1 then listStrLtB a.2 b.2 else passLineLtB a.1 b.1

/-- `list.sort` keeps `a` before `b` unless `b < a`. -/
def passLeB (a b : PassLine × List PyStr) : Bool := !pairLtB b a

/-- Stable insertion: the new (later) element goes after every kept element
`y` with `le y x`. -/
def insertLe {α : Type} (le : α → α → Bool) (x : α) : List α → List α
  | [] => [x]
  | y :: ys => if le y x then y :: insertLe le x ys else x :: y :: ys

/-- A stable sort with respect to `le`.  Python's `list.sort` (timsort) is a
stable sort driven by `<`; every stable sort computes the same permutation
whenever `<` is a strict weak order, which the hypotheses of the sorting
theorem below provide (and the counterexample below involves only two
sortable items, where all stable sorts agree unconditionally). -/
def stableSortLe {α : Type} (le : α → α → Bool) (l : List α) : List α :=
  l.foldl (fun acc x => insertLe le x acc) []

/-- The grouping loop of `PassFile.sort`: pure comments pile up and attach to
the next sortable line; a trailing run of pure comments is returned apart
(the source drops it unless there are no sortable lines at all). -/
def pairsOfAux (comments : List PyStr) : List PassLine →
    List (PassLine × List PyStr) × List PyStr
  | [] => ([], comments)
  | .comment c :: rest =>
    if (commentEntry? c).isNone then pairsOfAux (comments ++ [c]) rest
    else
      let r := pairsOfAux [] rest
      ((.comment c, comments) :: r.1, r.2)
  | .entry e :: rest =>
    let r := pairsOfAux [] rest
    ((.entry e, comments) :: r.1, r.2)

def pairsOf (ls : List PassLine) : List (PassLine × List PyStr) × List PyStr :=
  pairsOfAux [] ls

/-- The lines a sorted `(line, comments)` pair contributes to the file: its
comment block, then the line itself. -/
def blockOf (q : PassLine × List PyStr) : List PassLine :=
  q.2.map PassLine.comment ++ [q.1]

/-- `PassFile.sort()`. -/
def sortLines (ls : List PassLine) : List PassLine :=
  let p := pairsOf ls
  if p.1.isEmpty && !p.2.isEmpty then p.2.map PassLine.comment
  else ((stableSortLe passLeB p.1).map blockOf).flatten

/-- The `PassEntry` lines of a file, in order. -/
def entriesOf (ls : List PassLine) : List PassEntry :=
  ls.filterMap (fun l => match l with | .entry e => some e | .comment _ => none)

/-- The `(sort_key, comments)` abstraction of a sortable `(line, comments)`
pair; on entry lines whose fields all sort below the `chr(0xFF)` sentinel it
represents the tuple comparison exactly (see `pairLtB_eq_kcLtB`). -/
def pairKey (q : PassLine × List PyStr) : (Nat × List PyStr) × List PyStr :=
  ((match q.1 with | .entry e => sortKey e | .comment _ => (0, [])), q.2)

/-- Lexicographic comparison on `((precision, key fields), comments)`. -/
def kcLtB (x y : (Nat × List PyStr) × List PyStr) : Bool :=
  if x.1 = y.1 then listStrLtB x.2 y.2 else keyLtB x.1 y.1

/-! ## Concrete data used by witnesses and counterexamples -/

/-- The three lines of the commented-entry precedence scenario. -/
def c4Lines : List PyStr :=
  [pstr "port=5432\n", pstr "# port=5423\n", pstr "port=5433  # the real one!!\n"]

/-- The configuration produced by parsing `c4Lines`. -/
def c4Result : Configuration :=
  ⟨c4Lines,
   [(pstr "port",
     ⟨pstr "port", .int 5433, false, some (pstr "the real one!!"),
      pstr "port=5433  # the real one!!\n"⟩)], none⟩

/-- A filesystem whose single file includes itself. -/
def fsSelfLoop : FS :=
  ⟨[(pstr "/a.conf", [pstr "include = " ++ [qc] ++ pstr "/a.conf" ++ [qc, '\n']])], []⟩

/-- A filesystem with a transitive include cycle `/b.conf → /c.conf → /b.conf`. -/
def fsTransLoop : FS :=
  ⟨[(pstr "/b.conf", [pstr "include = " ++ [qc] ++ pstr "/c.conf" ++ [qc, '\n']]),
    (pstr "/c.conf", [pstr "include = " ++ [qc] ++ pstr "/b.conf" ++ [qc, '\n']])], []⟩

/-- A filesystem for the include precedence/isolation scenario. -/
def fsInc : FS :=
  ⟨[(pstr "/postgresql.conf",
     [pstr "include = " ++ [qc] ++ pstr "/included.conf" ++ [qc, '\n'],
      pstr "cluster_name=foo\n",
      pstr "max_connections=100\n"]),
    (pstr "/included.conf",
     [pstr "shared_buffers = 123MG\n", pstr "max_connections=45\n"])], []⟩

/-- The configuration produced by parsing `/postgresql.conf` of `fsInc`. -/
def incResult : Configuration :=
  ⟨[pstr "include = " ++ [qc] ++ pstr "/included.conf" ++ [qc, '\n'],
    pstr "cluster_name=foo\n",
    pstr "max_connections=100\n"],
   [(pstr "shared_buffers",
     ⟨pstr "shared_buffers", .str (pstr "123MG"), false, none,
      pstr "shared_buffers = 123MG\n"⟩),
    (pstr "max_connections",
     ⟨pstr "max_connections", .int 100, false, none, pstr "max_connections=100\n"⟩),
    (pstr "cluster_name",
     ⟨pstr "cluster_name", .str (pstr "foo"), false, none, pstr "cluster_name=foo\n"⟩)],
   some (pstr "/postgresql.conf")⟩

/-- A fully specific `.pgpass` entry (precision 0). -/
def c9A : PassEntry := ⟨pstr "h", .num 5432, pstr "db", pstr "u", pstr "pw"⟩

/-- A fully wildcarded `.pgpass` entry (precision 4). -/
def c9B : PassEntry := ⟨starS, .str starS, starS, starS, pstr "pw"⟩

/-- A small `.pgpass` file: an entry, a pure comment, another entry. -/
def c9File : List PassLine :=
  [PassLine.entry c9A, PassLine.comment (pstr "# hi"), PassLine.entry c9B]

/-! ## Sanity anchors

Anonymous checks pinning the embedding to behaviours recorded in the
repository's tests (`tests/test_conf.py`, `tests/test_pass.py`). -/

example : parse_value (pstr "on") = .ok (.bool true) := by decide
example : parse_value (pstr "off") = .ok (.bool false) := by decide
example : parse_value (pstr "10") = .ok (.int 10) := by decide
example : parse_value (pstr "010") = .ok (.str (pstr "010")) := by decide
example : parse_value (pstr "-2") = .ok (.int (-2)) := by decide
example : parse_value (pstr "0") = .ok (.int 0) := by decide
example : parse_value (pstr "1kB") = .ok (.str (pstr "1kB")) := by decide
example : parse_value (pstr " 64 GB ") = .ok (.str (pstr "64 GB")) := by decide
example : parse_value (pstr "150 ms") = .ok (.td ⟨150000⟩) := by decide
example : parse_value (pstr "24s ") = .ok (.td ⟨24000000⟩) := by decide
example : parse_value (pstr "2 h") = .ok (.td ⟨7200000000⟩) := by decide
example : parse_value (pstr "5d") = .ok (.td ⟨432000000000⟩) := by decide
example : parse_value (pstr "md5") = .ok (.str (pstr "md5")) := by decide
example : parse_value (pstr "0755.log") = .ok (.str (pstr "0755.log")) := by decide
example : parse_value (pstr "124.7MB") = .ok (.str (pstr "124.7MB")) := by decide
example : parse_value (pstr "1.4") = .ok (.float (pstr "1.4")) := by decide
example : parse_value ([qc] ++ pstr "no" ++ [qc]) = .ok (.bool false) := by decide
example :
    parse_value ([qc] ++ pstr "esc" ++ [bs, qc] ++ pstr "aped string" ++ [qc]) =
      .ok (.str (pstr "esc" ++ [qc] ++ pstr "aped string")) := by decide
example :
    parse_value ([qc] ++ pstr "host=" ++ [qc, qc] ++ pstr "127.0.0.1" ++ [qc, qc, qc]) =
      .ok (.str (pstr "host=" ++ [qc] ++ pstr "127.0.0.1" ++ [qc])) := by decide
example : parse_value ([qc] ++ pstr " 5 min" ++ [qc]) = .ok (.td ⟨300000000⟩) := by decide
example :
    parse_value ([qc] ++ pstr "missing last quote") =
      .error (.valueError ([qc] ++ pstr "missing last quote")) := by decide

-- serialization anchors (`test_serialize_entry`)
example : serializeValue (.bool true) = pstr "on" := by decide
example : serializeValue (.str (pstr "2kB")) = [qc] ++ pstr "2kB" ++ [qc] := by decide
example : serializeValue (.int 2048) = pstr "2048" := by decide
example :
    serializeValue (.str (pstr "quo" ++ [qc] ++ pstr "ed")) =
      [qc] ++ pstr "quo" ++ [qc, qc] ++ pstr "ed" ++ [qc] := by decide
example : serializeValue (.td ⟨60000000⟩) = [qc] ++ pstr "1 min" ++ [qc] := by decide

-- the commented-entry precedence scenario parses as the tests record
example :
    confParseLines (emptyConf none) c4Lines =
      .ok (⟨c4Lines,
            [(pstr "port",
              ⟨pstr "port", .int 5433, false, some (pstr "the real one!!"),
               pstr "port=5433  # the real one!!\n"⟩)], none⟩, []) := by decide

-- a self-include is detected as a loop
example :
    parseConfFile fsSelfLoop 10 (pstr "/a.conf") =
      .error (.runtimeError (loopMsg (pstr "/a.conf"))) := by decide

-- the pgpass sorting scenario of `test_parse_lines`
example :
    sortLines
      [.comment (pstr "# Comment for h2"),
       .entry ⟨pstr "h2", .str starS, starS, pstr "postgres", pstr "confidentiel"⟩,
       .comment (pstr "# h1:*:*:postgres:confidentiel"),
       .entry ⟨pstr "h2", .num 5432, starS, pstr "postgres", pstr "confidentiel"⟩] =
      [.entry ⟨pstr "h2", .num 5432, starS, pstr "postgres", pstr "confidentiel"⟩,
       .comment (pstr "# h1:*:*:postgres:confidentiel"),
       .comment (pstr "# Comment for h2"),
       .entry ⟨pstr "h2", .str starS, starS, pstr "postgres", pstr "confidentiel"⟩] := by decide

-- `#hostname:port:database:username:password` alone is left in place
example :
    sortLines [.comment (pstr "#hostname:port:database:username:password")] =
      [.comment (pstr "#hostname:port:database:username:password")] := by decide

-- escapedsplit anchors (`test_escaped_split`, `test_entry`)
example : escapedSplit (pstr "a:b") ':' = [pstr "a", pstr "b"] := by decide
example : escapedSplit (pstr "a:") ':' = [pstr "a", []] := by decide
example : escapedSplit (pstr "a" ++ [bs, ':']) ':' = [pstr "a:"] := by decide
example : escapedSplit (pstr "a" ++ [bs, bs, ':']) ':' = [pstr "a" ++ [bs], []] := by decide

/-! ## Claim C1: octal-looking tokens -/

/-- C1, counterexample: `parse_value("0700")` is the *string* `"0700"`, not
the integer `448` the claim asserts (the repository's own test
`test_parse_value` pins the same behaviour on `"010"`). -/
theorem C1_counterexample :
    parse_value (pstr "0700") = .ok (.str (pstr "0700")) ∧
      Value.str (pstr "0700") ≠ Value.int 448 := by
  constructor
  · decide
  · decide

/-- C1 (amended): a raw token that begins with `'0'`, is not exactly `"0"`,
and parses as a base-8 number is returned by `parse_value` unchanged, as a
string (the octal branch returns before the memory/duration patterns are even
tried, so no "unit pattern wins" exception arises). -/
theorem C1_octal_token_returned_as_string (raw : PyStr)
    (h0 : ['0'].isPrefixOf raw = true) (h1 : raw ≠ ['0']) (h2 : pyOct8 raw = true) :
    parse_value raw = .ok (.str raw) := by
  obtain ⟨t, rfl⟩ : ∃ t, raw = '0' :: t := by
    cases raw with
    | nil => exact absurd h0 (by decide)
    | cons c t =>
      refine ⟨t, ?_⟩
      have hc : ('0' == c) = true := by
        by_contra hne
        simp only [List.isPrefixOf, Bool.and_eq_true] at h0
        exact hne h0.1
      rw [show c = '0' from (beq_iff_eq.mp hc).symm]
  have hq : [qc].isPrefixOf ('0' :: t) = false := by
    simp only [List.isPrefixOf, Bool.and_eq_false_iff]
    left
    decide
  have hcond : (['0'].isPrefixOf ('0' :: t) && decide (('0' :: t) ≠ ['0']) &&
      pyOct8 ('0' :: t)) = true := by
    simp [h0, h1, h2]
  unfold parse_value postQuote
  rw [hq]
  simp only [Bool.false_eq_true, if_false]
  rw [if_pos hcond]

/-- Witness for `C1_octal_token_returned_as_string` at `"0700"`. -/
theorem C1_octal_token_returned_as_string_witness :
    (['0'].isPrefixOf (pstr "0700") = true ∧ pstr "0700" ≠ ['0'] ∧
      pyOct8 (pstr "0700") = true) ∧
      parse_value (pstr "0700") = .ok (.str (pstr "0700")) :=
  ⟨⟨by decide, by decide, by decide⟩,
   C1_octal_token_returned_as_string (pstr "0700") (by decide) (by decide) (by decide)⟩

/-! ## Claim C2: boolean decoding is case-sensitive in the code -/

/-- C2: the claim (and `tests/test_conf.py:19-21`) require case-insensitive
boolean decoding, but `parse_value` compares the raw token against the
lower-case literals only: `"TRUE"` and `"Off"` fall through every branch and
come back as strings, while the lower-case spellings decode to booleans. -/
theorem C2_boolean_decoding_case_sensitive :
    parse_value (pstr "TRUE") = .ok (.str (pstr "TRUE")) ∧
      parse_value (pstr "Off") = .ok (.str (pstr "Off")) ∧
      parse_value (pstr "On") = .ok (.str (pstr "On")) ∧
      parse_value (pstr "fAlSe") = .ok (.str (pstr "fAlSe")) ∧
      parse_value (pstr "true") = .ok (.bool true) ∧
      parse_value (pstr "yes") = .ok (.bool true) ∧
      parse_value (pstr "on") = .ok (.bool true) ∧
      parse_value (pstr "false") = .ok (.bool false) ∧
      parse_value (pstr "no") = .ok (.bool false) ∧
      parse_value (pstr "off") = .ok (.bool false) := by
  refine ⟨?_, ?_, ?_, ?_, ?_, ?_, ?_, ?_, ?_, ?_⟩ <;> decide

/-! ## Claim C4: commented-entry precedence and byte-exact save -/

/-- C4: parsing `["port=5432\n", "# port=5423\n", "port=5433  # the real
one!!\n"]` yields `port == 5433` while the line list (hence `save`'s output)
is exactly the three input lines; in general a commented occurrence of a name
whose existing entry is uncommented only appends the raw line and leaves the
entries dict untouched, while an uncommented match always overwrites the
entry under its name. -/
theorem C4_commented_precedence :
    (confParseLines (emptyConf none) c4Lines = .ok (c4Result, []) ∧
      confGetItem c4Result (pstr "port") = some (.int 5433) ∧
      c4Result.lines = c4Lines ∧ confSave c4Result = c4Lines.flatten) ∧
    (∀ (conf : Configuration) (raw : PyStr) (m : PMatch) (v : Value) (e : Entry),
      (pyStrip raw).head? = some '#' →
      (pyStrip raw).contains '=' = true →
      paramMatch (lstripWs (lstripHash (pyStrip raw))) = some m →
      parse_value m.value = .ok v →
      includeName? m.name = none →
      dictGet? conf.entries m.name = some e →
      e.commented = false →
      lineStep conf raw = .ok ({ conf with lines := conf.lines ++ [raw] }, none)) ∧
    (∀ (conf : Configuration) (raw : PyStr) (m : PMatch) (v : Value) (e : Entry),
      pyStrip raw ≠ [] →
      (pyStrip raw).head? ≠ some '#' →
      paramMatch (pyStrip raw) = some m →
      parse_value m.value = .ok v →
      includeName? m.name = none →
      entryInit m.name v false (m.comment.map (fun c => lstripWs (lstripHash c)))
        (some raw) = .ok e →
      lineStep conf raw =
        .ok (⟨conf.lines ++ [raw], dictSet conf.entries m.name e, conf.path⟩, none)) := by
  refine ⟨⟨by decide, by decide, by decide, by decide⟩, ?_, ?_⟩
  · intro conf raw m v e h1 h2 h3 h4 h5 h6 h7
    have hne : pyStrip raw ≠ [] := by
      intro h
      rw [h] at h1
      exact Option.noConfusion h1
    simp only [lineStep, lineStepProcess]
    rw [if_neg hne, if_pos h1]
    simp only [h2, Bool.not_true, Bool.false_eq_true, if_false, h3, h4, h5, h6, h7,
      Bool.not_false, Bool.and_true, if_pos, Bind.bind, Except.bind, pure, Except.pure]
  · intro conf raw m v e h1 h2 h3 h4 h5 h6
    simp only [lineStep, lineStepProcess]
    rw [if_neg h1, if_neg h2]
    simp only [h3, h4, h5, Bool.false_and, Bool.false_eq_true, if_false, h6,
      Bind.bind, Except.bind, pure, Except.pure]

/-- Witness for the quantified conjuncts of `C4_commented_precedence`: the
second and third input lines of the scenario themselves. -/
theorem C4_commented_precedence_witness :
    lineStep ⟨[pstr "port=5432\n"],
        [(pstr "port", ⟨pstr "port", .int 5432, false, none, pstr "port=5432\n"⟩)], none⟩
        (pstr "# port=5423\n") =
      .ok (⟨[pstr "port=5432\n", pstr "# port=5423\n"],
        [(pstr "port", ⟨pstr "port", .int 5432, false, none, pstr "port=5432\n"⟩)], none⟩,
        none) ∧
    lineStep ⟨[], [], none⟩ (pstr "port=5432\n") =
      .ok (⟨[pstr "port=5432\n"],
        [(pstr "port", ⟨pstr "port", .int 5432, false, none, pstr "port=5432\n"⟩)], none⟩,
        none) := by
  constructor
  · exact C4_commented_precedence.2.1
      ⟨[pstr "port=5432\n"],
        [(pstr "port", ⟨pstr "port", .int 5432, false, none, pstr "port=5432\n"⟩)], none⟩
      (pstr "# port=5423\n") ⟨pstr "port", pstr "5423", none⟩ (.int 5423)
      ⟨pstr "port", .int 5432, false, none, pstr "port=5432\n"⟩
      (by decide) (by decide) (by decide) (by decide) (by decide) (by decide) (by decide)
  · exact C4_commented_precedence.2.2 ⟨[], [], none⟩ (pstr "port=5432\n")
      ⟨pstr "port", pstr "5432", none⟩ (.int 5432)
      ⟨pstr "port", .int 5432, false, none, pstr "port=5432\n"⟩
      (by decide) (by decide) (by decide) (by decide) (by decide) (by decide)

/-! ## Claim C5: rejection of malformed lines -/

/-- C5, counterexample: the line `"5432=x\n"` (no `[a-z_.]+` name) makes the
parse fail with `ValueError("Bad line: '5432=x\n'.")` — a plain `ValueError`
whose message embeds the repr of the raw line, not the `ParseError` carrying
a 1-based line number that the claim describes (`conf.py` never raises
`errors.ParseError`). -/
theorem C5_counterexample :
    confParseLines (emptyConf none) [pstr "5432=x\n"] =
      .error (.valueError
        (pstr "Bad line: " ++ ([qc] ++ pstr "5432=x" ++ [bs, 'n'] ++ [qc]) ++ pstr ".")) ∧
      ∀ (n : Nat) (l msg : PyStr),
        confParseLines (emptyConf none) [pstr "5432=x\n"] ≠ .error (.parseError n l msg) := by
  refine ⟨by decide, ?_⟩
  intro n l msg h
  rw [show confParseLines (emptyConf none) [pstr "5432=x\n"] =
    .error (.valueError
      (pstr "Bad line: " ++ ([qc] ++ pstr "5432=x" ++ [bs, 'n'] ++ [qc]) ++ pstr "."))
    from by decide] at h
  exact PyErr.noConfusion (Except.error.inj h)

/-- Unfolding equation of `confParseLines` on a cons cell. -/
theorem confParseLines_cons (conf : Configuration) (l : PyStr) (rest : List PyStr) :
    confParseLines conf (l :: rest) =
      (do
        let s ← lineStep conf l
        let r ← confParseLines s.1 rest
        pure (r.1, (match s.2 with | some i => i :: r.2 | none => r.2))) := rfl

/-- C5 (amended): a non-blank line that does not start with `#` and fails the
assignment grammar aborts the whole parse immediately with
`ValueError("Bad line: %r." % raw_line)` (not a line-numbered ParseError):
the failing `lineStep` produces exactly that error, and a line list whose
prefix parses fine propagates it as the overall result, so no configuration
is returned. -/
theorem C5_bad_line_value_error :
    (∀ (conf : Configuration) (bad : PyStr),
      pyStrip bad ≠ [] → (pyStrip bad).head? ≠ some '#' → paramMatch (pyStrip bad) = none →
      lineStep conf bad = .error (.valueError (pstr "Bad line: " ++ pyRepr bad ++ pstr "."))) ∧
    (∀ (pre : List PyStr) (conf c : Configuration) (incs : List (PyStr × IncludeType))
      (bad : PyStr) (post : List PyStr),
      confParseLines conf pre = .ok (c, incs) →
      pyStrip bad ≠ [] → (pyStrip bad).head? ≠ some '#' → paramMatch (pyStrip bad) = none →
      confParseLines conf (pre ++ bad :: post) =
        .error (.valueError (pstr "Bad line: " ++ pyRepr bad ++ pstr "."))) := by
  have step : ∀ (conf : Configuration) (bad : PyStr),
      pyStrip bad ≠ [] → (pyStrip bad).head? ≠ some '#' → paramMatch (pyStrip bad) = none →
      lineStep conf bad =
        .error (.valueError (pstr "Bad line: " ++ pyRepr bad ++ pstr ".")) := by
    intro conf bad hb1 hb2 hb3
    simp only [lineStep]
    rw [if_neg hb1, if_neg hb2]
    simp only [hb3]
  refine ⟨step, ?_⟩
  intro pre
  induction pre with
  | nil =>
    intro conf c incs bad post _ hb1 hb2 hb3
    rw [List.nil_append, confParseLines_cons, step conf bad hb1 hb2 hb3]
    simp [Bind.bind, Except.bind]
  | cons p rest ih =>
    intro conf c incs bad post h hb1 hb2 hb3
    rw [confParseLines_cons] at h
    rw [List.cons_append, confParseLines_cons]
    cases hs : lineStep conf p with
    | error e =>
      rw [hs] at h
      simp [Bind.bind, Except.bind] at h
    | ok s =>
      rw [hs] at h
      simp only [Bind.bind, Except.bind] at h ⊢
      cases hr : confParseLines s.1 rest with
      | error e =>
        rw [hr] at h
        simp at h
      | ok r =>
        rw [ih s.1 r.1 r.2 bad post hr hb1 hb2 hb3]

/-- Witness for `C5_bad_line_value_error`: one good line, then the bad one. -/
theorem C5_bad_line_value_error_witness :
    confParseLines (emptyConf none) [pstr "port=5432\n", pstr "5432=x\n"] =
      .error (.valueError (pstr "Bad line: " ++ pyRepr (pstr "5432=x\n") ++ pstr ".")) := by
  have h := C5_bad_line_value_error.2 [pstr "port=5432\n"] (emptyConf none)
    ⟨[pstr "port=5432\n"],
      [(pstr "port", ⟨pstr "port", .int 5432, false, none, pstr "port=5432\n"⟩)], none⟩
    [] (pstr "5432=x\n") [] (by decide) (by decide) (by decide) (by decide)
  exact h

/-! ## Support lemmas for the value round trip (claim C3) -/

theorem dropWhile_eq_self_of_all {p : Char → Bool} (s : PyStr)
    (h : ∀ c ∈ s, p c = false) : s.dropWhile p = s := by
  cases s with
  | nil => rfl
  | cons c rest => simp [List.dropWhile, h c (List.mem_cons_self c rest)]

theorem takeWhile_all {p : Char → Bool} (s : PyStr) (h : ∀ c ∈ s, p c = true) :
    s.takeWhile p = s := by
  induction s with
  | nil => rfl
  | cons c rest ih =>
    simp only [List.takeWhile, h c (List.mem_cons_self c rest)]
    rw [ih (fun x hx => h x (List.mem_cons_of_mem c hx))]

theorem dropWhile_all {p : Char → Bool} (s : PyStr) (h : ∀ c ∈ s, p c = true) :
    s.dropWhile p = [] := by
  induction s with
  | nil => rfl
  | cons c rest ih =>
    simp only [List.dropWhile, h c (List.mem_cons_self c rest)]
    exact ih (fun x hx => h x (List.mem_cons_of_mem c hx))

theorem takeWhile_append_all {p : Char → Bool} (xs ys : PyStr)
    (h : ∀ c ∈ xs, p c = true) : (xs ++ ys).takeWhile p = xs ++ ys.takeWhile p := by
  induction xs with
  | nil => rfl
  | cons c rest ih =>
    simp only [List.cons_append, List.takeWhile, h c (List.mem_cons_self c rest)]
    exact congrArg (c :: ·) (ih (fun x hx => h x (List.mem_cons_of_mem c hx)))

theorem dropWhile_append_all {p : Char → Bool} (xs ys : PyStr)
    (h : ∀ c ∈ xs, p c = true) : (xs ++ ys).dropWhile p = ys.dropWhile p := by
  induction xs with
  | nil => rfl
  | cons c rest ih =>
    simp only [List.cons_append, List.dropWhile, h c (List.mem_cons_self c rest)]
    exact ih (fun x hx => h x (List.mem_cons_of_mem c hx))

theorem pyStrip_eq_self (s : PyStr) (h : ∀ c ∈ s, isPyWs c = false) : pyStrip s = s := by
  unfold pyStrip lstripWs rstripWs
  rw [dropWhile_eq_self_of_all s h,
    dropWhile_eq_self_of_all s.reverse (fun c hc => h c (List.mem_reverse.mp hc)),
    List.reverse_reverse]

theorem digit_not_ws (c : Char) (h : c.isDigit = true) : isPyWs c = false := by
  have h1 : c ≠ ' ' := fun he => by rw [he] at h; exact absurd h (by decide)
  have h2 : c ≠ '\t' := fun he => by rw [he] at h; exact absurd h (by decide)
  have h3 : c ≠ '\n' := fun he => by rw [he] at h; exact absurd h (by decide)
  have h4 : c ≠ '\r' := fun he => by rw [he] at h; exact absurd h (by decide)
  have h5 : c ≠ Char.ofNat 11 := fun he => by rw [he] at h; exact absurd h (by decide)
  have h6 : c ≠ Char.ofNat 12 := fun he => by rw [he] at h; exact absurd h (by decide)
  simp [isPyWs, h1, h2, h3, h4, h5, h6]

theorem digChar_spec (d : Nat) (h : d < 10) :
    (digChar d).isDigit = true ∧ digitVal (digChar d) = d ∧
    isPyWs (digChar d) = false ∧ digChar d ≠ '_' ∧ digChar d ≠ '+' ∧
    digChar d ≠ '-' ∧ digChar d ≠ qc ∧ digChar d ≠ bs := by
  interval_cases d <;> refine ⟨by decide, by decide, by decide, by decide, by decide,
    by decide, by decide, by decide⟩

theorem natDigitsAux_lt (fuel : Nat) : ∀ n, n ≤ fuel → ∀ d ∈ natDigitsAux fuel n, d < 10 := by
  induction fuel with
  | zero => intro n _ d hd; simp [natDigitsAux] at hd
  | succ fuel ih =>
    intro n hn d hd
    by_cases h0 : n = 0
    · simp [natDigitsAux, h0] at hd
    · rw [natDigitsAux, if_neg h0] at hd
      rcases List.mem_cons.mp hd with h | h
      · rw [h]; exact Nat.mod_lt n (by omega)
      · exact ih (n / 10) (by omega) d h

theorem natDigitsAux_val (fuel : Nat) :
    ∀ n, n ≤ fuel → (natDigitsAux fuel n).foldr (fun d acc => d + 10 * acc) 0 = n := by
  induction fuel with
  | zero => intro n hn; interval_cases n; rfl
  | succ fuel ih =>
    intro n hn
    by_cases h0 : n = 0
    · simp [natDigitsAux, h0]
    · rw [natDigitsAux, if_neg h0]
      simp only [List.foldr_cons]
      rw [ih (n / 10) (by omega)]
      omega

theorem natDigitsAux_concat (fuel : Nat) :
    ∀ n, n ≤ fuel → n ≠ 0 →
      ∃ L d, natDigitsAux fuel n = L ++ [d] ∧ 0 < d ∧ d < 10 := by
  induction fuel with
  | zero => intro n hn h0; omega
  | succ fuel ih =>
    intro n hn h0
    rw [natDigitsAux, if_neg h0]
    by_cases hq : n / 10 = 0
    · refine ⟨[], n % 10, ?_, ?_, Nat.mod_lt n (by omega)⟩
      · rw [hq]
        cases fuel <;> simp [natDigitsAux]
      · omega
    · obtain ⟨L, d, hEq, hpos, hlt⟩ := ih (n / 10) (by omega) hq
      exact ⟨n % 10 :: L, d, by rw [hEq]; rfl, hpos, hlt⟩

theorem natRepr_chars (n : Nat) : ∀ c ∈ natRepr n, c.isDigit = true := by
  intro c hc
  unfold natRepr at hc
  by_cases h0 : n = 0
  · rw [if_pos h0] at hc
    simp only [List.mem_singleton] at hc
    rw [hc]; decide
  · rw [if_neg h0] at hc
    obtain ⟨d, hd, hdc⟩ := List.mem_map.mp hc
    rw [← hdc]
    exact (digChar_spec d (natDigitsAux_lt n n (le_refl n) d (List.mem_reverse.mp hd))).1

theorem natRepr_ne_nil (n : Nat) : natRepr n ≠ [] := by
  unfold natRepr
  by_cases h0 : n = 0
  · rw [if_pos h0]; exact List.cons_ne_nil _ _
  · rw [if_neg h0]
    intro h
    have hv := natDigitsAux_val n n (le_refl n)
    rw [List.map_eq_nil_iff, List.reverse_eq_nil_iff] at h
    rw [h] at hv
    exact h0 hv.symm

theorem natRepr_head_pos (n : Nat) (h0 : n ≠ 0) :
    ∃ d r, natRepr n = digChar d :: r ∧ 0 < d ∧ d < 10 := by
  obtain ⟨L, d, hEq, hpos, hlt⟩ := natDigitsAux_concat n n (le_refl n) h0
  refine ⟨d, (L.reverse.map digChar), ?_, hpos, hlt⟩
  unfold natRepr
  rw [if_neg h0, hEq, List.reverse_append, List.reverse_singleton]
  rfl

theorem digitsLoopU_digits (L : PyStr) :
    (∀ c ∈ L, c.isDigit = true) → ∀ acc,
      digitsLoopU acc L = some (L.foldl (fun a c => a * 10 + digitVal c) acc) := by
  induction L with
  | nil => intro _ acc; rfl
  | cons c rest ih =>
    intro h acc
    have hc := h c (List.mem_cons_self c rest)
    have hcu : c ≠ '_' := fun he => by rw [he] at hc; exact absurd hc (by decide)
    rw [digitsLoopU.eq_def]
    simp only []
    rw [if_neg hcu, if_pos hc, List.foldl_cons]
    exact ih (fun x hx => h x (List.mem_cons_of_mem c hx)) _

theorem parseNatU_digits (L : PyStr) (h : ∀ c ∈ L, c.isDigit = true) (hne : L ≠ []) :
    parseNatU L = some (L.foldl (fun a c => a * 10 + digitVal c) 0) := by
  cases L with
  | nil => exact absurd rfl hne
  | cons c rest =>
    rw [parseNatU, if_pos (h c (List.mem_cons_self c rest))]
    rw [digitsLoopU_digits rest (fun x hx => h x (List.mem_cons_of_mem c hx)) (digitVal c)]
    rw [List.foldl_cons]
    norm_num

theorem foldl_digits_reverse (L : List Nat) (hlt : ∀ d ∈ L, d < 10) : ∀ acc,
    (L.reverse.map digChar).foldl (fun a c => a * 10 + digitVal c) acc =
      acc * 10 ^ L.length + L.foldr (fun d a => d + 10 * a) 0 := by
  induction L with
  | nil => intro acc; simp
  | cons d L ih =>
    intro acc
    rw [List.reverse_cons, List.map_append, List.foldl_append]
    rw [ih (fun x hx => hlt x (List.mem_cons_of_mem d hx))]
    simp only [List.map_cons, List.map_nil, List.foldl_cons, List.foldl_nil,
      List.foldr_cons, List.length_cons]
    rw [(digChar_spec d (hlt d (List.mem_cons_self d L))).2.1]
    ring

theorem natRepr_val (n : Nat) : parseNatU (natRepr n) = some n := by
  by_cases h0 : n = 0
  · rw [h0]; decide
  · rw [parseNatU_digits (natRepr n) (natRepr_chars n) (natRepr_ne_nil n)]
    unfold natRepr
    rw [if_neg h0]
    rw [foldl_digits_reverse (natDigitsAux n n) (natDigitsAux_lt n n (le_refl n)) 0]
    rw [natDigitsAux_val n n (le_refl n)]
    norm_num

theorem digit_ne (c : Char) (h : c.isDigit = true) :
    c ≠ '+' ∧ c ≠ '-' ∧ c ≠ qc ∧ c ≠ '_' ∧ c ≠ bs := by
  refine ⟨?_, ?_, ?_, ?_, ?_⟩ <;>
    exact fun he => by rw [he] at h; exact absurd h (by decide)

theorem pyIntOf_natRepr (n : Nat) : pyIntOf (natRepr n) = some (n : Int) := by
  have hch := natRepr_chars n
  have hstrip : pyStrip (natRepr n) = natRepr n :=
    pyStrip_eq_self _ (fun c hc => digit_not_ws c (hch c hc))
  obtain ⟨c, r, hcr⟩ : ∃ c r, natRepr n = c :: r := by
    cases hcase : natRepr n with
    | nil => exact absurd hcase (natRepr_ne_nil n)
    | cons c r => exact ⟨c, r, rfl⟩
  have hc : c.isDigit = true := hch c (by rw [hcr]; exact List.mem_cons_self c r)
  unfold pyIntOf
  rw [hstrip, hcr]
  simp only []
  rw [if_neg (digit_ne c hc).1, if_neg (digit_ne c hc).2.1, ← hcr, natRepr_val]
  rfl

theorem pyIntOf_intRepr (n : Int) : pyIntOf (intRepr n) = some n := by
  by_cases hn : n < 0
  · unfold intRepr
    rw [if_pos hn]
    have hch := natRepr_chars n.natAbs
    have hstrip : pyStrip ('-' :: natRepr n.natAbs) = '-' :: natRepr n.natAbs := by
      refine pyStrip_eq_self _ ?_
      intro c hc
      rcases List.mem_cons.mp hc with h | h
      · rw [h]; decide
      · exact digit_not_ws c (hch c h)
    unfold pyIntOf
    rw [hstrip]
    simp only []
    rw [if_neg (by decide : ¬(('-' : Char) = '+')), if_pos trivial, natRepr_val]
    show some (-(n.natAbs : Int)) = some n
    congr 1
    omega
  · unfold intRepr
    rw [if_neg hn, pyIntOf_natRepr]
    congr 1
    omega

theorem memMatchB_intRepr (n : Int) : memMatchB (intRepr n) = false := by
  by_cases hn : n < 0
  · rw [intRepr, if_pos hn]
    have hch := natRepr_chars n.natAbs
    simp only [memMatchB, lstripWs]
    rw [dropWhile_eq_self_of_all _ (fun c hc => by
      rcases List.mem_cons.mp hc with h | h
      · rw [h]; decide
      · exact digit_not_ws c (hch c h))]
    rw [show List.takeWhile Char.isDigit ('-' :: natRepr n.natAbs) = [] from by
      simp [List.takeWhile]]
    simp
  · rw [intRepr, if_neg hn]
    simp only [memMatchB, lstripWs]
    rw [dropWhile_eq_self_of_all _
      (fun c hc => digit_not_ws c (natRepr_chars n.toNat c hc))]
    rw [takeWhile_all _ (natRepr_chars n.toNat), dropWhile_all _ (natRepr_chars n.toNat)]
    rw [if_neg (natRepr_ne_nil n.toNat)]
    rfl

theorem tdMatchB_intRepr (n : Int) : tdMatchB (intRepr n) = none := by
  by_cases hn : n < 0
  · rw [intRepr, if_pos hn]
    have hch := natRepr_chars n.natAbs
    simp only [tdMatchB, lstripWs]
    rw [dropWhile_eq_self_of_all _ (fun c hc => by
      rcases List.mem_cons.mp hc with h | h
      · rw [h]; decide
      · exact digit_not_ws c (hch c h))]
    rw [show List.takeWhile Char.isDigit ('-' :: natRepr n.natAbs) = [] from by
      simp [List.takeWhile]]
    simp
  · rw [intRepr, if_neg hn]
    simp only [tdMatchB, lstripWs]
    rw [dropWhile_eq_self_of_all _
      (fun c hc => digit_not_ws c (natRepr_chars n.toNat c hc))]
    rw [takeWhile_all _ (natRepr_chars n.toNat), dropWhile_all _ (natRepr_chars n.toNat)]
    rw [if_neg (natRepr_ne_nil n.toNat)]
    rfl

theorem cons_ne_of_head {c a : Char} {r t : PyStr} (h : c ≠ a) : c :: r ≠ a :: t :=
  fun he => h (List.cons.inj he).1

/-- `parse_value` on an unquoted token is `postQuote`. -/
theorem parse_value_unquoted (tok : PyStr) (h : [qc].isPrefixOf tok = false) :
    parse_value tok = .ok (postQuote tok) := by
  unfold parse_value
  rw [h]
  simp

/-- Evaluate `postQuote` down the chain when every branch before the int
parse misses. -/
theorem postQuote_int_via (tok : PyStr) (n : Int)
    (h1 : (['0'].isPrefixOf tok && decide (tok ≠ ['0']) && pyOct8 tok) = false)
    (h2 : memMatchB tok = false) (h3 : tdMatchB tok = none)
    (h4 : (decide (tok = pstr "true") || decide (tok = pstr "yes") ||
      decide (tok = pstr "on")) = false)
    (h5 : (decide (tok = pstr "false") || decide (tok = pstr "no") ||
      decide (tok = pstr "off")) = false)
    (h6 : pyIntOf tok = some n) :
    postQuote tok = .int n := by
  simp only [postQuote, h1, h2, h3, h4, h5, h6, Bool.false_eq_true, if_false]

/-- Evaluate `postQuote` down to the timedelta branch. -/
theorem postQuote_td_via (tok : PyStr) (v : Nat) (pm : Int)
    (h1 : (['0'].isPrefixOf tok && decide (tok ≠ ['0']) && pyOct8 tok) = false)
    (h2 : memMatchB tok = false) (h3 : tdMatchB tok = some (v, pm)) :
    postQuote tok = .td ⟨(v : Int) * pm⟩ := by
  simp only [postQuote, h1, h2, h3, Bool.false_eq_true, if_false]

theorem parse_value_intRepr (n : Int) : parse_value (intRepr n) = .ok (.int n) := by
  have hhead : ∃ c r, intRepr n = c :: r ∧ (c.isDigit = true ∨ c = '-') ∧
      (n ≠ 0 → c ≠ '0') := by
    by_cases hn : n < 0
    · refine ⟨'-', natRepr n.natAbs, by rw [intRepr, if_pos hn], Or.inr rfl,
        fun _ => by decide⟩
    · by_cases h0 : n = 0
      · exact ⟨'0', [], by rw [h0]; rfl, Or.inl (by decide), fun hc => absurd h0 hc⟩
      · obtain ⟨d, r, hEq, hpos, hlt⟩ := natRepr_head_pos n.toNat (by omega)
        refine ⟨digChar d, r, by rw [intRepr, if_neg hn, hEq],
          Or.inl (digChar_spec d hlt).1, fun _ => ?_⟩
        interval_cases d <;> simp_all <;> decide
  obtain ⟨c, r, hcr, hc, hc0⟩ := hhead
  have hqc : [qc].isPrefixOf (intRepr n) = false := by
    rw [hcr]
    have : qc ≠ c := by
      rcases hc with h | h
      · exact fun he => ((digit_ne c h).2.2.1 he.symm)
      · rw [h]; decide
    simp [List.isPrefixOf, this]
  rw [parse_value_unquoted _ hqc]
  congr 1
  have h1 : (['0'].isPrefixOf (intRepr n) && decide (intRepr n ≠ ['0']) &&
      pyOct8 (intRepr n)) = false := by
    by_cases h0 : n = 0
    · rw [h0]
      decide
    · rw [hcr]
      have hne : ('0' : Char) ≠ c := fun he => (hc0 h0) he.symm
      simp [List.isPrefixOf, hne]
  have h4 : (decide (intRepr n = pstr "true") || decide (intRepr n = pstr "yes") ||
      decide (intRepr n = pstr "on")) = false := by
    rw [hcr]
    have hne : ∀ a : Char, a = 't' ∨ a = 'y' ∨ a = 'o' → c ≠ a := by
      intro a ha he
      rcases hc with h | h
      · rcases ha with h2 | h2 | h2 <;> rw [h2] at he <;> rw [he] at h <;>
          exact absurd h (by decide)
      · rw [h] at he
        rcases ha with h2 | h2 | h2 <;> rw [h2] at he <;> exact absurd he (by decide)
    have n1 : c :: r ≠ pstr "true" := cons_ne_of_head (hne 't' (Or.inl rfl))
    have n2 : c :: r ≠ pstr "yes" := cons_ne_of_head (hne 'y' (Or.inr (Or.inl rfl)))
    have n3 : c :: r ≠ pstr "on" := cons_ne_of_head (hne 'o' (Or.inr (Or.inr rfl)))
    simp [n1, n2, n3]
  have h5 : (decide (intRepr n = pstr "false") || decide (intRepr n = pstr "no") ||
      decide (intRepr n = pstr "off")) = false := by
    rw [hcr]
    have hne : ∀ a : Char, a = 'f' ∨ a = 'n' ∨ a = 'o' → c ≠ a := by
      intro a ha he
      rcases hc with h | h
      · rcases ha with h2 | h2 | h2 <;> rw [h2] at he <;> rw [he] at h <;>
          exact absurd h (by decide)
      · rw [h] at he
        rcases ha with h2 | h2 | h2 <;> rw [h2] at he <;> exact absurd he (by decide)
    have n1 : c :: r ≠ pstr "false" := cons_ne_of_head (hne 'f' (Or.inl rfl))
    have n2 : c :: r ≠ pstr "no" := cons_ne_of_head (hne 'n' (Or.inr (Or.inl rfl)))
    have n3 : c :: r ≠ pstr "off" := cons_ne_of_head (hne 'o' (Or.inr (Or.inr rfl)))
    simp [n1, n2, n3]
  exact postQuote_int_via (intRepr n) n h1 (memMatchB_intRepr n) (tdMatchB_intRepr n)
    h4 h5 (pyIntOf_intRepr n)

theorem replaceGo_head_ne (o : Char) (os new : PyStr) (c : Char) (rest : PyStr)
    (h : o ≠ c) :
    replaceGo (o :: os) new (c :: rest) 0 = c :: replaceGo (o :: os) new rest 0 := by
  simp only [replaceGo]
  rw [if_neg (by simp [List.isPrefixOf, h])]

theorem replaceGo_no_occ (old new : PyStr) :
    ∀ s, hasSub old s = false → replaceGo old new s 0 = s := by
  intro s
  induction s with
  | nil => intro _; rfl
  | cons c rest ih =>
    intro h
    simp only [hasSub, Bool.or_eq_false_iff] at h
    simp only [replaceGo]
    rw [if_neg (by rw [h.1]; exact Bool.false_ne_true)]
    rw [ih h.2]

theorem pyReplace_no_occ (s : PyStr) (o : Char) (os new : PyStr)
    (h : hasSub (o :: os) s = false) : pyReplace s (o :: os) new = s :=
  replaceGo_no_occ (o :: os) new s h

theorem hasSub_false_of_head_not_mem (a : Char) (p s : PyStr) (h : a ∉ s) :
    hasSub (a :: p) s = false := by
  induction s with
  | nil => rfl
  | cons c rest ih =>
    have hne : a ≠ c := fun he => h (by rw [he]; exact List.mem_cons_self c rest)
    simp only [hasSub, Bool.or_eq_false_iff]
    constructor
    · simp [List.isPrefixOf, hne]
    · exact ih (fun hm => h (List.mem_cons_of_mem c hm))

theorem escape_roundtrip :
    ∀ s : PyStr, replaceGo [qc, qc] [qc] (replaceGo [qc] [qc, qc] s 0) 0 = s := by
  intro s
  induction s with
  | nil => rfl
  | cons c rest ih =>
    by_cases hc : c = qc
    · subst hc
      have e1 : replaceGo [qc] [qc, qc] (qc :: rest) 0 =
          qc :: qc :: replaceGo [qc] [qc, qc] rest 0 := by
        simp [replaceGo, List.isPrefixOf]
      have e2 : ∀ x : PyStr, replaceGo [qc, qc] [qc] (qc :: qc :: x) 0 =
          qc :: replaceGo [qc, qc] [qc] x 0 := by
        intro x
        simp [replaceGo, List.isPrefixOf]
      rw [e1, e2, ih]
    · rw [replaceGo_head_ne qc [] [qc, qc] c rest (fun he => hc he.symm)]
      rw [replaceGo_head_ne qc [qc] [qc] c _ (fun he => hc he.symm)]
      rw [ih]

theorem escape_unescape (s : PyStr) :
    pyReplace (pyReplace s [qc] [qc, qc]) [qc, qc] [qc] = s :=
  escape_roundtrip s

/-- Structure of `parse_value` on a single-quoted token. -/
theorem parse_value_quoted (core : PyStr) :
    parse_value ([qc] ++ core ++ [qc]) =
      .ok (postQuote (pyReplace (pyReplace core [qc, qc] [qc]) [bs, qc] [qc])) := by
  have hpre : [qc].isPrefixOf ([qc] ++ core ++ [qc]) = true := by
    simp [List.isPrefixOf]
  have hsuf : [qc].isSuffixOf ([qc] ++ core ++ [qc]) = true := by
    show ([qc].reverse.isPrefixOf ([qc] ++ core ++ [qc]).reverse) = true
    rw [show ([qc] ++ core ++ [qc] : PyStr) = ([qc] ++ core) ++ [qc] from
      (List.append_assoc [qc] core [qc]).symm]
    rw [List.reverse_append ([qc] ++ core) [qc]]
    simp [List.isPrefixOf]
  unfold parse_value
  rw [hpre, hsuf]
  simp only [if_true]
  unfold unquoteUnescape
  have hcore : (([qc] ++ core ++ [qc] : PyStr).drop 1).dropLast = core := by
    show (core ++ [qc]).dropLast = core
    exact List.dropLast_concat
  rw [hcore]

theorem lstripWs_cons_of_not_ws (c : Char) (l : PyStr) (h : isPyWs c = false) :
    lstripWs (c :: l) = c :: l := by
  simp [lstripWs, List.dropWhile, h]

theorem lstripWs_natRepr_app (v : Nat) (u : PyStr) :
    lstripWs (natRepr v ++ u) = natRepr v ++ u := by
  obtain ⟨c, rr, hcr⟩ : ∃ c rr, natRepr v = c :: rr :=
    List.exists_cons_of_ne_nil (natRepr_ne_nil v)
  have hcdig : c.isDigit = true :=
    natRepr_chars v c (by rw [hcr]; exact List.mem_cons_self c rr)
  rw [hcr, List.cons_append, lstripWs_cons_of_not_ws c _ (digit_not_ws c hcdig)]

theorem not_mem_natRepr_app {a : Char} (hnd : a.isDigit = false) (v : Nat)
    (u : PyStr) (hu : a ∉ u) : a ∉ natRepr v ++ u := by
  intro hmem
  rcases List.mem_append.mp hmem with hcase | hcase
  · rw [natRepr_chars v a hcase] at hnd
    exact absurd hnd (by decide)
  · exact hu hcase

/-- `postQuote` on a digit run followed by a (concretely checkable) timedelta
unit tail lands in the timedelta branch. -/
theorem postQuote_digits_unit (uc : Char) (ur : PyStr) (m : Int) (v : Nat)
    (hudig : uc.isDigit = false)
    (hfind : tdFindGo tdUnits (lstripWs (uc :: ur)) = some m)
    (hmem : memUnitTail (lstripWs (uc :: ur)) = false)
    (hoct : pyOct8 ('0' :: uc :: ur) = false) :
    postQuote (natRepr v ++ (uc :: ur)) = Value.td ⟨(v : Int) * m⟩ := by
  have hall : ∀ x ∈ natRepr v, Char.isDigit x = true := natRepr_chars v
  have h1 : (['0'].isPrefixOf (natRepr v ++ (uc :: ur)) &&
      decide (natRepr v ++ (uc :: ur) ≠ ['0']) &&
      pyOct8 (natRepr v ++ (uc :: ur))) = false := by
    by_cases hv0 : v = 0
    · subst hv0
      rw [show (natRepr 0 ++ (uc :: ur) : PyStr) = '0' :: uc :: ur from rfl]
      rw [hoct]
      simp
    · obtain ⟨d, r, hEq, hpos, hlt⟩ := natRepr_head_pos v hv0
      have hd0 : ('0' : Char) ≠ digChar d := by
        interval_cases d <;> decide
      rw [hEq, List.cons_append]
      simp [List.isPrefixOf, hd0]
  have h2 : memMatchB (natRepr v ++ (uc :: ur)) = false := by
    simp only [memMatchB, lstripWs_natRepr_app]
    rw [takeWhile_append_all _ _ hall, dropWhile_append_all _ _ hall]
    rw [show List.takeWhile Char.isDigit (uc :: ur) = [] from by
      simp [List.takeWhile, hudig]]
    rw [List.append_nil, if_neg (natRepr_ne_nil v)]
    rw [show List.dropWhile Char.isDigit (uc :: ur) = uc :: ur from by
      simp [List.dropWhile, hudig]]
    exact hmem
  have h3 : tdMatchB (natRepr v ++ (uc :: ur)) = some (v, m) := by
    simp only [tdMatchB, lstripWs_natRepr_app]
    rw [takeWhile_append_all _ _ hall, dropWhile_append_all _ _ hall]
    rw [show List.takeWhile Char.isDigit (uc :: ur) = [] from by
      simp [List.takeWhile, hudig]]
    rw [List.append_nil, if_neg (natRepr_ne_nil v)]
    rw [show List.dropWhile Char.isDigit (uc :: ur) = uc :: ur from by
      simp [List.dropWhile, hudig]]
    rw [hfind, natRepr_val]
    rfl
  exact postQuote_td_via _ v m h1 h2 h3

/-- Parsing a quoted digits-plus-unit token yields the timedelta. -/
theorem td_roundtrip_token (v : Nat) (uc : Char) (ur : PyStr) (m : Int)
    (huq : qc ∉ uc :: ur) (hub : bs ∉ uc :: ur)
    (hudig : uc.isDigit = false)
    (hfind : tdFindGo tdUnits (lstripWs (uc :: ur)) = some m)
    (hmem : memUnitTail (lstripWs (uc :: ur)) = false)
    (hoct : pyOct8 ('0' :: uc :: ur) = false) :
    parse_value ([qc] ++ natRepr v ++ (uc :: ur) ++ [qc]) =
      .ok (.td ⟨(v : Int) * m⟩) := by
  have hassoc : ([qc] ++ natRepr v ++ (uc :: ur) ++ [qc] : PyStr) =
      [qc] ++ (natRepr v ++ (uc :: ur)) ++ [qc] := by
    simp [List.append_assoc]
  rw [hassoc, parse_value_quoted]
  have hq : qc ∉ natRepr v ++ (uc :: ur) := not_mem_natRepr_app (by decide) v _ huq
  have hb : bs ∉ natRepr v ++ (uc :: ur) := not_mem_natRepr_app (by decide) v _ hub
  rw [show pyReplace (natRepr v ++ (uc :: ur)) [qc, qc] [qc] =
      natRepr v ++ (uc :: ur) from
    pyReplace_no_occ _ qc [qc] [qc] (hasSub_false_of_head_not_mem qc [qc] _ hq)]
  rw [show pyReplace (natRepr v ++ (uc :: ur)) [bs, qc] [qc] =
      natRepr v ++ (uc :: ur) from
    pyReplace_no_occ _ bs [qc] [qc] (hasSub_false_of_head_not_mem bs [qc] _ hb)]
  rw [postQuote_digits_unit uc ur m v hudig hfind hmem hoct]

theorem td_token_ms (v : Nat) :
    parse_value ([qc] ++ natRepr v ++ pstr " ms" ++ [qc]) =
      .ok (.td ⟨(v : Int) * 1000⟩) :=
  td_roundtrip_token v ' ' (pstr "ms") 1000 (by decide) (by decide) (by decide)
    (by decide) (by decide) (by decide)

theorem td_token_d (v : Nat) :
    parse_value ([qc] ++ natRepr v ++ pstr "d" ++ [qc]) =
      .ok (.td ⟨(v : Int) * 86400000000⟩) :=
  td_roundtrip_token v 'd' [] 86400000000 (by decide) (by decide) (by decide)
    (by decide) (by decide) (by decide)

theorem td_token_h (v : Nat) :
    parse_value ([qc] ++ natRepr v ++ pstr "h" ++ [qc]) =
      .ok (.td ⟨(v : Int) * 3600000000⟩) :=
  td_roundtrip_token v 'h' [] 3600000000 (by decide) (by decide) (by decide)
    (by decide) (by decide) (by decide)

theorem td_token_min (v : Nat) :
    parse_value ([qc] ++ natRepr v ++ pstr " min" ++ [qc]) =
      .ok (.td ⟨(v : Int) * 60000000⟩) :=
  td_roundtrip_token v ' ' (pstr "min") 60000000 (by decide) (by decide)
    (by decide) (by decide) (by decide) (by decide)

theorem td_token_s (v : Nat) :
    parse_value ([qc] ++ natRepr v ++ pstr "s" ++ [qc]) =
      .ok (.td ⟨(v : Int) * 1000000⟩) :=
  td_roundtrip_token v 's' [] 1000000 (by decide) (by decide) (by decide)
    (by decide) (by decide) (by decide)

/-! ## Support lemmas for `PassFile.sort` (claim C9): the orders -/

theorem strLtB_irrefl : ∀ s, strLtB s s = false
  | [] => rfl
  | c :: r => by simp [strLtB, strLtB_irrefl r]

theorem strLtB_asymm : ∀ s t, strLtB s t = true → strLtB t s = false
  | [], [], h => by simp [strLtB] at h
  | [], _ :: _, _ => rfl
  | _ :: _, [], h => by simp [strLtB] at h
  | x :: xs, y :: ys, h => by
    by_cases hxy : x = y
    · subst hxy
      simp only [strLtB, if_pos rfl] at h ⊢
      exact strLtB_asymm xs ys h
    · simp only [strLtB, if_neg hxy] at h
      have hlt : x < y := of_decide_eq_true h
      simp only [strLtB, if_neg (ne_of_gt hlt)]
      exact decide_eq_false (lt_asymm hlt)

theorem strLtB_trans : ∀ s t u, strLtB s t = true → strLtB t u = true →
    strLtB s u = true
  | [], [], _, h1, _ => by simp [strLtB] at h1
  | [], _ :: _, [], _, h2 => by simp [strLtB] at h2
  | [], _ :: _, _ :: _, _, _ => rfl
  | _ :: _, [], _, h1, _ => by simp [strLtB] at h1
  | _ :: _, _ :: _, [], _, h2 => by simp [strLtB] at h2
  | x :: xs, y :: ys, z :: zs, h1, h2 => by
    by_cases hxy : x = y <;> by_cases hyz : y = z
    · subst hxy; subst hyz
      simp only [strLtB, if_pos rfl] at h1 h2 ⊢
      exact strLtB_trans xs ys zs h1 h2
    · subst hxy
      simp only [strLtB, if_pos rfl] at h1
      simp only [strLtB, if_neg hyz] at h2 ⊢
      exact h2
    · subst hyz
      simp only [strLtB, if_neg hxy] at h1 ⊢
      exact h1
    · simp only [strLtB, if_neg hxy] at h1
      simp only [strLtB, if_neg hyz] at h2
      have hlt : x < z := lt_trans (of_decide_eq_true h1) (of_decide_eq_true h2)
      simp only [strLtB, if_neg (ne_of_lt hlt)]
      exact decide_eq_true hlt

theorem strLtB_connex : ∀ s t, s ≠ t → strLtB s t = true ∨ strLtB t s = true
  | [], [], h => absurd rfl h
  | [], _ :: _, _ => Or.inl rfl
  | _ :: _, [], _ => Or.inr rfl
  | x :: xs, y :: ys, h => by
    by_cases hxy : x = y
    · subst hxy
      have hne : xs ≠ ys := fun he => h (by rw [he])
      rcases strLtB_connex xs ys hne with h2 | h2
      · exact Or.inl (by simp only [strLtB, if_pos rfl]; exact h2)
      · exact Or.inr (by simp only [strLtB, if_pos rfl]; exact h2)
    · rcases lt_or_gt_of_ne hxy with hlt | hlt
      · exact Or.inl (by simp only [strLtB, if_neg hxy]; exact decide_eq_true hlt)
      · exact Or.inr (by
          simp only [strLtB, if_neg (ne_of_lt hlt)]
          exact decide_eq_true hlt)

theorem listStrLtB_asymm : ∀ s t, listStrLtB s t = true → listStrLtB t s = false
  | [], [], h => by simp [listStrLtB] at h
  | [], _ :: _, _ => rfl
  | _ :: _, [], h => by simp [listStrLtB] at h
  | x :: xs, y :: ys, h => by
    by_cases hxy : x = y
    · subst hxy
      simp only [listStrLtB, if_pos rfl] at h ⊢
      exact listStrLtB_asymm xs ys h
    · simp only [listStrLtB, if_neg hxy] at h
      simp only [listStrLtB, if_neg (Ne.symm hxy)]
      exact strLtB_asymm x y h

theorem listStrLtB_trans : ∀ s t u, listStrLtB s t = true → listStrLtB t u = true →
    listStrLtB s u = true
  | [], [], _, h1, _ => by simp [listStrLtB] at h1
  | [], _ :: _, [], _, h2 => by simp [listStrLtB] at h2
  | [], _ :: _, _ :: _, _, _ => rfl
  | _ :: _, [], _, h1, _ => by simp [listStrLtB] at h1
  | _ :: _, _ :: _, [], _, h2 => by simp [listStrLtB] at h2
  | x :: xs, y :: ys, z :: zs, h1, h2 => by
    by_cases hxy : x = y <;> by_cases hyz : y = z
    · subst hxy; subst hyz
      simp only [listStrLtB, if_pos rfl] at h1 h2 ⊢
      exact listStrLtB_trans xs ys zs h1 h2
    · subst hxy
      simp only [listStrLtB, if_pos rfl] at h1
      simp only [listStrLtB, if_neg hyz] at h2 ⊢
      exact h2
    · subst hyz
      simp only [listStrLtB, if_neg hxy] at h1 ⊢
      exact h1
    · simp only [listStrLtB, if_neg hxy] at h1
      simp only [listStrLtB, if_neg hyz] at h2
      by_cases hxz : x = z
      · subst hxz
        rw [strLtB_asymm x y h1] at h2
        cases h2
      · simp only [listStrLtB, if_neg hxz]
        exact strLtB_trans x y z h1 h2

theorem listStrLtB_connex : ∀ s t, s ≠ t →
    listStrLtB s t = true ∨ listStrLtB t s = true
  | [], [], h => absurd rfl h
  | [], _ :: _, _ => Or.inl rfl
  | _ :: _, [], _ => Or.inr rfl
  | x :: xs, y :: ys, h => by
    by_cases hxy : x = y
    · subst hxy
      have hne : xs ≠ ys := fun he => h (by rw [he])
      rcases listStrLtB_connex xs ys hne with h2 | h2
      · exact Or.inl (by simp only [listStrLtB, if_pos rfl]; exact h2)
      · exact Or.inr (by simp only [listStrLtB, if_pos rfl]; exact h2)
    · rcases strLtB_connex x y hxy with h2 | h2
      · exact Or.inl (by simp only [listStrLtB, if_neg hxy]; exact h2)
      · exact Or.inr (by simp only [listStrLtB, if_neg (Ne.symm hxy)]; exact h2)

theorem keyLtB_asymm (a b : Nat × List PyStr) (h : keyLtB a b = true) :
    keyLtB b a = false := by
  by_cases hab : a.1 = b.1
  · simp only [keyLtB, if_pos hab] at h
    simp only [keyLtB, if_pos hab.symm]
    exact listStrLtB_asymm _ _ h
  · simp only [keyLtB, if_neg hab] at h
    have hlt : a.1 < b.1 := of_decide_eq_true h
    simp only [keyLtB, if_neg (Nat.ne_of_gt hlt)]
    exact decide_eq_false (Nat.not_lt.mpr (Nat.le_of_lt hlt))

theorem keyLtB_trans (a b c : Nat × List PyStr) (h1 : keyLtB a b = true)
    (h2 : keyLtB b c = true) : keyLtB a c = true := by
  by_cases hab : a.1 = b.1 <;> by_cases hbc : b.1 = c.1
  · simp only [keyLtB, if_pos hab] at h1
    simp only [keyLtB, if_pos hbc] at h2
    simp only [keyLtB, if_pos (hab.trans hbc)]
    exact listStrLtB_trans _ _ _ h1 h2
  · simp only [keyLtB, if_neg hbc] at h2
    simp only [keyLtB, if_neg (hab ▸ hbc)]
    rw [hab]
    exact h2
  · simp only [keyLtB, if_neg hab] at h1
    simp only [keyLtB, if_neg (hbc ▸ hab)]
    rw [← hbc]
    exact h1
  · simp only [keyLtB, if_neg hab] at h1
    simp only [keyLtB, if_neg hbc] at h2
    have hlt : a.1 < c.1 :=
      Nat.lt_trans (of_decide_eq_true h1) (of_decide_eq_true h2)
    simp only [keyLtB, if_neg (Nat.ne_of_lt hlt)]
    exact decide_eq_true hlt

theorem keyLtB_connex (a b : Nat × List PyStr) (h : a ≠ b) :
    keyLtB a b = true ∨ keyLtB b a = true := by
  by_cases hab : a.1 = b.1
  · have hne : a.2 ≠ b.2 := by
      intro he
      exact h (Prod.ext hab he)
    rcases listStrLtB_connex a.2 b.2 hne with h2 | h2
    · exact Or.inl (by simp only [keyLtB, if_pos hab]; exact h2)
    · exact Or.inr (by simp only [keyLtB, if_pos hab.symm]; exact h2)
  · rcases Nat.lt_or_ge a.1 b.1 with hlt | hge
    · exact Or.inl (by simp only [keyLtB, if_neg hab]; exact decide_eq_true hlt)
    · have hlt : b.1 < a.1 := Nat.lt_of_le_of_ne hge (Ne.symm hab)
      exact Or.inr (by
        simp only [keyLtB, if_neg (Ne.symm hab)]
        exact decide_eq_true hlt)

theorem kcLtB_asymm (a b : (Nat × List PyStr) × List PyStr)
    (h : kcLtB a b = true) : kcLtB b a = false := by
  by_cases hab : a.1 = b.1
  · simp only [kcLtB, if_pos hab] at h
    simp only [kcLtB, if_pos hab.symm]
    exact listStrLtB_asymm _ _ h
  · simp only [kcLtB, if_neg hab] at h
    simp only [kcLtB, if_neg (Ne.symm hab)]
    exact keyLtB_asymm _ _ h

theorem kcLtB_trans (a b c : (Nat × List PyStr) × List PyStr)
    (h1 : kcLtB a b = true) (h2 : kcLtB b c = true) : kcLtB a c = true := by
  by_cases hab : a.1 = b.1 <;> by_cases hbc : b.1 = c.1
  · simp only [kcLtB, if_pos hab] at h1
    simp only [kcLtB, if_pos hbc] at h2
    simp only [kcLtB, if_pos (hab.trans hbc)]
    exact listStrLtB_trans _ _ _ h1 h2
  · simp only [kcLtB, if_neg hbc] at h2
    simp only [kcLtB, if_neg (hab ▸ hbc)]
    rw [hab]
    exact h2
  · simp only [kcLtB, if_neg hab] at h1
    simp only [kcLtB, if_neg (hbc ▸ hab)]
    rw [← hbc]
    exact h1
  · simp only [kcLtB, if_neg hab] at h1
    simp only [kcLtB, if_neg hbc] at h2
    by_cases hac : a.1 = c.1
    · rw [hac] at h1
      rw [keyLtB_asymm _ _ h1] at h2
      cases h2
    · simp only [kcLtB, if_neg hac]
      exact keyLtB_trans _ _ _ h1 h2

theorem kcLtB_connex (a b : (Nat × List PyStr) × List PyStr) (h : a ≠ b) :
    kcLtB a b = true ∨ kcLtB b a = true := by
  by_cases hab : a.1 = b.1
  · have hne : a.2 ≠ b.2 := by
      intro he
      exact h (Prod.ext hab he)
    rcases listStrLtB_connex a.2 b.2 hne with h2 | h2
    · exact Or.inl (by simp only [kcLtB, if_pos hab]; exact h2)
    · exact Or.inr (by simp only [kcLtB, if_pos hab.symm]; exact h2)
  · rcases keyLtB_connex a.1 b.1 hab with h2 | h2
    · exact Or.inl (by simp only [kcLtB, if_neg hab]; exact h2)
    · exact Or.inr (by simp only [kcLtB, if_neg (Ne.symm hab)]; exact h2)

/-- For a strict order with connexity, `¬(a < b)` is transitive. -/
theorem le_trans_of_strict {α : Type} [DecidableEq α] (lt : α → α → Bool)
    (hasym : ∀ a b, lt a b = true → lt b a = false)
    (htrans : ∀ a b c, lt a b = true → lt b c = true → lt a c = true)
    (hconnex : ∀ a b, a ≠ b → lt a b = true ∨ lt b a = true)
    (a b c : α) (h1 : lt b a = false) (h2 : lt c b = false) : lt c a = false := by
  by_cases hab : a = b
  · rw [hab]
    exact h2
  · by_cases hbc : b = c
    · rw [← hbc]
      exact h1
    · rcases hconnex a b hab with h | h
      · rcases hconnex b c hbc with h3 | h3
        · exact hasym _ _ (htrans _ _ _ h h3)
        · rw [h3] at h2
          cases h2
      · rw [h] at h1
        cases h1

/-! ## Support lemmas for `PassFile.sort` (claim C9): the sort itself -/

theorem mem_insertLe {α : Type} (le : α → α → Bool) (x : α) :
    ∀ l y, y ∈ insertLe le x l → y = x ∨ y ∈ l
  | [], y, h => by
    simp only [insertLe, List.mem_singleton] at h
    exact Or.inl h
  | z :: zs, y, h => by
    simp only [insertLe] at h
    cases hle : le z x with
    | true =>
      rw [if_pos hle] at h
      rcases List.mem_cons.mp h with h | h
      · exact Or.inr (by rw [h]; exact List.mem_cons_self z zs)
      · rcases mem_insertLe le x zs y h with h | h
        · exact Or.inl h
        · exact Or.inr (List.mem_cons_of_mem z h)
    | false =>
      rw [if_neg (by rw [hle]; exact Bool.false_ne_true)] at h
      rcases List.mem_cons.mp h with h | h
      · exact Or.inl h
      · exact Or.inr h

theorem pairwise_insertLe {α : Type} (le : α → α → Bool) (S : α → Prop)
    (htot : ∀ a b, S a → S b → le a b = false → le b a = true)
    (htrans : ∀ a b c, S a → S b → S c → le a b = true → le b c = true →
      le a c = true)
    (x : α) (hx : S x) :
    ∀ l, (∀ y ∈ l, S y) → List.Pairwise (fun a b => le a b = true) l →
      List.Pairwise (fun a b => le a b = true) (insertLe le x l)
  | [], _, _ => by simp [insertLe]
  | z :: zs, hS, hp => by
    have hz : S z := hS z (List.mem_cons_self z zs)
    have hzs : ∀ y ∈ zs, S y := fun y hy => hS y (List.mem_cons_of_mem z hy)
    rw [List.pairwise_cons] at hp
    obtain ⟨hzall, hpzs⟩ := hp
    simp only [insertLe]
    cases hle : le z x with
    | true =>
      rw [if_pos rfl, List.pairwise_cons]
      constructor
      · intro y hy
        rcases mem_insertLe le x zs y hy with h | h
        · rw [h]; exact hle
        · exact hzall y h
      · exact pairwise_insertLe le S htot htrans x hx zs hzs hpzs
    | false =>
      rw [if_neg Bool.false_ne_true, List.pairwise_cons]
      have hxz : le x z = true := htot z x hz hx hle
      constructor
      · intro y hy
        rcases List.mem_cons.mp hy with h | h
        · rw [h]; exact hxz
        · exact htrans x z y hx hz (hzs y h) hxz (hzall y h)
      · exact List.pairwise_cons.mpr ⟨hzall, hpzs⟩

theorem insertLe_perm {α : Type} (le : α → α → Bool) (x : α) :
    ∀ l, (insertLe le x l).Perm (x :: l)
  | [] => List.Perm.refl _
  | z :: zs => by
    simp only [insertLe]
    cases hle : le z x with
    | true =>
      rw [if_pos rfl]
      exact ((insertLe_perm le x zs).cons z).trans (List.Perm.swap x z zs)
    | false =>
      rw [if_neg Bool.false_ne_true]

theorem stableSortLe_perm_aux {α : Type} (le : α → α → Bool) :
    ∀ (l acc : List α),
      (l.foldl (fun acc x => insertLe le x acc) acc).Perm (acc ++ l)
  | [], acc => by simp
  | x :: l, acc => by
    simp only [List.foldl]
    refine (stableSortLe_perm_aux le l (insertLe le x acc)).trans ?_
    refine ((insertLe_perm le x acc).append_right l).trans ?_
    exact List.perm_middle.symm

theorem stableSortLe_perm {α : Type} (le : α → α → Bool) (l : List α) :
    (stableSortLe le l).Perm l := by
  have h := stableSortLe_perm_aux le l []
  simpa [stableSortLe] using h

theorem pairwise_stableSortLe_aux {α : Type} (le : α → α → Bool) (S : α → Prop)
    (htot : ∀ a b, S a → S b → le a b = false → le b a = true)
    (htrans : ∀ a b c, S a → S b → S c → le a b = true → le b c = true →
      le a c = true) :
    ∀ (l acc : List α), (∀ y ∈ l, S y) → (∀ y ∈ acc, S y) →
      List.Pairwise (fun a b => le a b = true) acc →
      List.Pairwise (fun a b => le a b = true)
        (l.foldl (fun acc x => insertLe le x acc) acc)
  | [], _, _, _, hp => hp
  | x :: l, acc, hSl, hSacc, hp => by
    simp only [List.foldl]
    refine pairwise_stableSortLe_aux le S htot htrans l (insertLe le x acc)
      (fun y hy => hSl y (List.mem_cons_of_mem x hy)) ?_ ?_
    · intro y hy
      rcases mem_insertLe le x acc y hy with h | h
      · rw [h]; exact hSl x (List.mem_cons_self x l)
      · exact hSacc y h
    · exact pairwise_insertLe le S htot htrans x (hSl x (List.mem_cons_self x l))
        acc hSacc hp

theorem pairwise_stableSortLe {α : Type} (le : α → α → Bool) (S : α → Prop)
    (htot : ∀ a b, S a → S b → le a b = false → le b a = true)
    (htrans : ∀ a b c, S a → S b → S c → le a b = true → le b c = true →
      le a c = true)
    (l : List α) (hS : ∀ y ∈ l, S y) :
    List.Pairwise (fun a b => le a b = true) (stableSortLe le l) :=
  pairwise_stableSortLe_aux le S htot htrans l [] hS (by simp) (by simp)

/-! ## Support lemmas for `PassFile.sort` (claim C9): file structure -/

theorem mem_entriesOf (b : PassEntry) (L : List PassLine) :
    b ∈ entriesOf L ↔ PassLine.entry b ∈ L := by
  constructor
  · intro h
    obtain ⟨l, hl, hfl⟩ := List.mem_filterMap.mp h
    cases l with
    | entry e =>
      have he : e = b := by
        simpa using hfl
      rw [← he]
      exact hl
    | comment c => simp at hfl
  · intro h
    exact List.mem_filterMap.mpr ⟨PassLine.entry b, h, rfl⟩

theorem entriesOf_append (l1 l2 : List PassLine) :
    entriesOf (l1 ++ l2) = entriesOf l1 ++ entriesOf l2 := by
  simp [entriesOf]

theorem entriesOf_comments (cs : List PyStr) :
    entriesOf (cs.map PassLine.comment) = [] := by
  induction cs with
  | nil => rfl
  | cons c cs ih =>
    simp only [List.map_cons, entriesOf, List.filterMap_cons] at ih ⊢
    exact ih

theorem entriesOf_blockOf (q : PassLine × List PyStr) :
    entriesOf (blockOf q) = (match q.1 with
      | PassLine.entry e => [e]
      | PassLine.comment _ => []) := by
  rw [blockOf, entriesOf_append, entriesOf_comments, List.nil_append]
  cases hq : q.1 with
  | entry e => rfl
  | comment c => rfl

theorem block_split (b : PassEntry) :
    ∀ (cs : List PyStr) (h : PassLine) (F pre post : List PassLine),
      (cs.map PassLine.comment ++ [h]) ++ F = pre ++ PassLine.entry b :: post →
      (h = PassLine.entry b ∧ post = F) ∨
      (∃ pre2, F = pre2 ++ PassLine.entry b :: post)
  | [], h, F, pre, post, heq => by
    simp only [List.map_nil, List.nil_append, List.singleton_append] at heq
    cases pre with
    | nil =>
      simp only [List.nil_append] at heq
      obtain ⟨h1, h2⟩ := List.cons.inj heq
      exact Or.inl ⟨h1, h2.symm⟩
    | cons p pre2 =>
      simp only [List.cons_append] at heq
      obtain ⟨h1, h2⟩ := List.cons.inj heq
      exact Or.inr ⟨pre2, h2⟩
  | c :: cs, h, F, pre, post, heq => by
    simp only [List.map_cons, List.cons_append] at heq
    cases pre with
    | nil =>
      simp only [List.nil_append] at heq
      obtain ⟨h1, _⟩ := List.cons.inj heq
      exact PassLine.noConfusion h1
    | cons p pre2 =>
      simp only [List.cons_append] at heq
      obtain ⟨_, h2⟩ := List.cons.inj heq
      exact block_split b cs h F pre2 post (by
        simpa only [List.cons_append] using h2)

theorem flatten_split (b : PassEntry) :
    ∀ (qs : List (PassLine × List PyStr)) (pre post : List PassLine),
      (qs.map blockOf).flatten = pre ++ PassLine.entry b :: post →
      ∃ pre2 cs2 post2, qs = pre2 ++ (PassLine.entry b, cs2) :: post2 ∧
        post = (post2.map blockOf).flatten
  | [], pre, post, heq => by
    simp only [List.map_nil, List.flatten_nil] at heq
    exact absurd heq.symm (List.append_ne_nil_of_right_ne_nil pre
      (List.cons_ne_nil _ _))
  | q :: qs, pre, post, heq => by
    rw [List.map_cons, List.flatten_cons] at heq
    rcases block_split b q.2 q.1 ((qs.map blockOf).flatten) pre post heq with
      ⟨h1, h2⟩ | ⟨pre2, h3⟩
    · refine ⟨[], q.2, qs, ?_, h2⟩
      rw [List.nil_append, show (PassLine.entry b, q.2) = q from
        Prod.ext h1.symm rfl]
    · obtain ⟨pre3, cs2, post2, hqs, hpost⟩ := flatten_split b qs pre2 post h3
      exact ⟨q :: pre3, cs2, post2, by rw [hqs]; rfl, hpost⟩

theorem entry_mem_flatten (a : PassEntry) :
    ∀ qs : List (PassLine × List PyStr),
      PassLine.entry a ∈ (qs.map blockOf).flatten →
      ∃ cs, (PassLine.entry a, cs) ∈ qs
  | [], h => by simp at h
  | q :: qs, h => by
    rw [List.map_cons, List.flatten_cons] at h
    rcases List.mem_append.mp h with h | h
    · rcases List.mem_append.mp (h : _ ∈ q.2.map PassLine.comment ++ [q.1])
          with h | h
      · obtain ⟨c, _, hc⟩ := List.mem_map.mp h
        exact PassLine.noConfusion hc
      · have hq : q.1 = PassLine.entry a := (List.mem_singleton.mp h).symm
        refine ⟨q.2, ?_⟩
        rw [show (PassLine.entry a, q.2) = q from Prod.ext hq.symm rfl]
        exact List.mem_cons_self q qs
    · obtain ⟨cs, hcs⟩ := entry_mem_flatten a qs h
      exact ⟨cs, List.mem_cons_of_mem q hcs⟩

theorem pairsOfAux_heads :
    ∀ (L : List PassLine) (cs0 : List PyStr) (q : PassLine × List PyStr),
      q ∈ (pairsOfAux cs0 L).1 →
      (∃ e, q.1 = PassLine.entry e ∧ PassLine.entry e ∈ L) ∨
      (∃ c, q.1 = PassLine.comment c ∧ PassLine.comment c ∈ L ∧
        (commentEntry? c).isSome = true)
  | [], _, q, h => by simp [pairsOfAux] at h
  | .comment c :: rest, cs0, q, h => by
    by_cases hce : (commentEntry? c).isNone = true
    · rw [show pairsOfAux cs0 (.comment c :: rest) =
          pairsOfAux (cs0 ++ [c]) rest from by
        simp [pairsOfAux, hce]] at h
      rcases pairsOfAux_heads rest (cs0 ++ [c]) q h with
        ⟨e, he, hm⟩ | ⟨c2, hc2, hm, hs⟩
      · exact Or.inl ⟨e, he, List.mem_cons_of_mem _ hm⟩
      · exact Or.inr ⟨c2, hc2, List.mem_cons_of_mem _ hm, hs⟩
    · rw [show pairsOfAux cs0 (.comment c :: rest) =
          ((PassLine.comment c, cs0) :: (pairsOfAux [] rest).1,
            (pairsOfAux [] rest).2) from by
        simp [pairsOfAux, hce]] at h
      rcases List.mem_cons.mp h with h | h
      · refine Or.inr ⟨c, by rw [h], List.mem_cons_self _ _, ?_⟩
        cases hv : commentEntry? c with
        | none => rw [hv] at hce; exact absurd rfl hce
        | some e => rfl
      · rcases pairsOfAux_heads rest [] q h with
          ⟨e, he, hm⟩ | ⟨c2, hc2, hm, hs⟩
        · exact Or.inl ⟨e, he, List.mem_cons_of_mem _ hm⟩
        · exact Or.inr ⟨c2, hc2, List.mem_cons_of_mem _ hm, hs⟩
  | .entry e :: rest, cs0, q, h => by
    rw [show pairsOfAux cs0 (.entry e :: rest) =
        ((PassLine.entry e, cs0) :: (pairsOfAux [] rest).1,
          (pairsOfAux [] rest).2) from rfl] at h
    rcases List.mem_cons.mp h with h | h
    · exact Or.inl ⟨e, by rw [h], List.mem_cons_self _ _⟩
    · rcases pairsOfAux_heads rest [] q h with
        ⟨e2, he, hm⟩ | ⟨c2, hc2, hm, hs⟩
      · exact Or.inl ⟨e2, he, List.mem_cons_of_mem _ hm⟩
      · exact Or.inr ⟨c2, hc2, List.mem_cons_of_mem _ hm, hs⟩

theorem pairsOfAux_ne_nil (e : PassEntry) :
    ∀ (L : List PassLine) (cs0 : List PyStr), PassLine.entry e ∈ L →
      (pairsOfAux cs0 L).1 ≠ []
  | [], _, hmem => absurd hmem (by simp)
  | .comment c :: rest, cs0, hmem => by
    have hmem2 : PassLine.entry e ∈ rest := by
      rcases List.mem_cons.mp hmem with h | h
      · exact PassLine.noConfusion h
      · exact h
    by_cases hce : (commentEntry? c).isNone = true
    · rw [show pairsOfAux cs0 (.comment c :: rest) =
          pairsOfAux (cs0 ++ [c]) rest from by simp [pairsOfAux, hce]]
      exact pairsOfAux_ne_nil e rest (cs0 ++ [c]) hmem2
    · rw [show pairsOfAux cs0 (.comment c :: rest) =
          ((PassLine.comment c, cs0) :: (pairsOfAux [] rest).1,
            (pairsOfAux [] rest).2) from by simp [pairsOfAux, hce]]
      exact List.cons_ne_nil _ _
  | .entry e2 :: rest, cs0, _ => by
    rw [show pairsOfAux cs0 (.entry e2 :: rest) =
        ((PassLine.entry e2, cs0) :: (pairsOfAux [] rest).1,
          (pairsOfAux [] rest).2) from rfl]
    exact List.cons_ne_nil _ _

/-! ## Support lemmas for `PassFile.sort` (claim C9): keys and pairs -/

theorem listStrLtB_cons_same (x : PyStr) (xs ys : List PyStr) :
    listStrLtB (x :: xs) (x :: ys) = listStrLtB xs ys := by
  simp [listStrLtB]

theorem listStrLtB_cons_of_lt (x y : PyStr) (xs ys : List PyStr)
    (hne : x ≠ y) (hlt : strLtB x y = true) :
    listStrLtB (x :: xs) (y :: ys) = true := by
  simp only [listStrLtB]
  rw [if_neg hne]
  exact hlt

/-- The wildcard substitution of `sort_key` is injective on fields that sort
strictly below the sentinel. -/
theorem kf_inj (a b : PyStr) (ha : strLtB a sentinelS = true)
    (hb : strLtB b sentinelS = true)
    (h : (if a = starS then sentinelS else a) =
      (if b = starS then sentinelS else b)) :
    a = b := by
  by_cases h1 : a = starS <;> by_cases h2 : b = starS
  · rw [h1, h2]
  · rw [if_pos h1, if_neg h2] at h
    rw [← h, strLtB_irrefl] at hb
    exact absurd hb Bool.false_ne_true
  · rw [if_neg h1, if_pos h2] at h
    rw [h, strLtB_irrefl] at ha
    exact absurd ha Bool.false_ne_true
  · rw [if_neg h1, if_neg h2] at h
    exact h

theorem sortKey_eq_of_tuple_eq (e1 e2 : PassEntry)
    (h : asTuple4 e1 = asTuple4 e2) : sortKey e1 = sortKey e2 := by
  simp only [sortKey, precision, keyFields, h]

theorem tuple_eq_of_key_eq (e1 e2 : PassEntry)
    (h1 : ∀ f ∈ asTuple4 e1, strLtB f sentinelS = true)
    (h2 : ∀ f ∈ asTuple4 e2, strLtB f sentinelS = true)
    (hk : sortKey e1 = sortKey e2) : asTuple4 e1 = asTuple4 e2 := by
  have hkf : keyFields e1 = keyFields e2 := congrArg Prod.snd hk
  simp only [keyFields, asTuple4, List.map_cons, List.map_nil,
    List.cons.injEq, and_true] at hkf
  obtain ⟨q0, q1, q2, q3⟩ := hkf
  simp only [asTuple4, List.cons.injEq, and_true]
  refine ⟨?_, ?_, ?_, ?_⟩
  · exact kf_inj _ _ (h1 _ (by simp [asTuple4])) (h2 _ (by simp [asTuple4])) q0
  · exact kf_inj _ _ (h1 _ (by simp [asTuple4])) (h2 _ (by simp [asTuple4])) q1
  · exact kf_inj _ _ (h1 _ (by simp [asTuple4])) (h2 _ (by simp [asTuple4])) q2
  · exact kf_inj _ _ (h1 _ (by simp [asTuple4])) (h2 _ (by simp [asTuple4])) q3

/-- On entry-headed pairs whose fields sort below the sentinel, the tuple
comparison of `PassFile.sort` is the lexicographic `(sort_key, comments)`
comparison. -/
theorem pairLtB_eq_kcLtB (q1 q2 : PassLine × List PyStr) (e1 e2 : PassEntry)
    (hq1 : q1.1 = PassLine.entry e1) (hq2 : q2.1 = PassLine.entry e2)
    (h1 : ∀ f ∈ asTuple4 e1, strLtB f sentinelS = true)
    (h2 : ∀ f ∈ asTuple4 e2, strLtB f sentinelS = true) :
    pairLtB q1 q2 = kcLtB (pairKey q1) (pairKey q2) := by
  obtain ⟨l1, c1⟩ := q1
  obtain ⟨l2, c2⟩ := q2
  simp only at hq1 hq2
  subst hq1
  subst hq2
  simp only [pairLtB, pairKey, kcLtB, passLineEqB, passLineLtB]
  by_cases ht : asTuple4 e1 = asTuple4 e2
  · rw [if_pos (decide_eq_true ht), if_pos (sortKey_eq_of_tuple_eq e1 e2 ht)]
  · rw [if_neg (by rw [decide_eq_false ht]; exact Bool.false_ne_true),
      if_neg (fun hk => ht (tuple_eq_of_key_eq e1 e2 h1 h2 hk))]

theorem prec_le_of_passLe (e1 e2 : PassEntry) (c1 c2 : List PyStr)
    (h : passLeB (PassLine.entry e1, c1) (PassLine.entry e2, c2) = true) :
    precision e1 ≤ precision e2 := by
  have h2 : pairLtB (PassLine.entry e2, c2) (PassLine.entry e1, c1) = false := by
    cases hv : pairLtB (PassLine.entry e2, c2) (PassLine.entry e1, c1) with
    | false => rfl
    | true =>
      simp only [passLeB, hv] at h
      exact absurd h (by decide)
  simp only [pairLtB, passLineEqB, passLineLtB] at h2
  by_cases hT : asTuple4 e2 = asTuple4 e1
  · have hpe : precision e1 = precision e2 := by
      simp [precision, hT]
    exact le_of_eq hpe
  · rw [if_neg (by rw [decide_eq_false hT]; exact Bool.false_ne_true)] at h2
    simp only [keyLtB, sortKey] at h2
    by_cases hp : precision e2 = precision e1
    · exact le_of_eq hp.symm
    · rw [if_neg hp] at h2
      exact Nat.le_of_not_lt (of_decide_eq_false h2)

/-- At equal precision, a field-specific entry sorts strictly before the
entry wildcarding that field (given agreement on the earlier fields and the
specific field below the sentinel). -/
theorem keyLt_of_wildcard (e1 e2 : PassEntry) (i : Nat) (hi : i < 4)
    (hprec : precision e1 = precision e2)
    (hagree : ∀ j, j < i → (asTuple4 e1).getD j [] = (asTuple4 e2).getD j [])
    (hspec : (asTuple4 e1).getD i [] ≠ starS)
    (hwild : (asTuple4 e2).getD i [] = starS)
    (hbelow : strLtB ((asTuple4 e1).getD i []) sentinelS = true) :
    keyLtB (sortKey e1) (sortKey e2) = true := by
  simp only [keyLtB, sortKey]
  rw [if_pos hprec]
  simp only [keyFields, asTuple4, List.map_cons, List.map_nil]
  interval_cases i
  · have hs : e1.hostname ≠ starS := hspec
    have hw : e2.hostname = starS := hwild
    have hb : strLtB e1.hostname sentinelS = true := hbelow
    have hns : e1.hostname ≠ sentinelS := by
      intro he
      rw [he, strLtB_irrefl] at hb
      exact absurd hb Bool.false_ne_true
    rw [if_pos hw, if_neg hs]
    exact listStrLtB_cons_of_lt _ _ _ _ hns hb
  · have ha0 : e1.hostname = e2.hostname := hagree 0 (by omega)
    have hs : portStr e1.port ≠ starS := hspec
    have hw : portStr e2.port = starS := hwild
    have hb : strLtB (portStr e1.port) sentinelS = true := hbelow
    have hns : portStr e1.port ≠ sentinelS := by
      intro he
      rw [he, strLtB_irrefl] at hb
      exact absurd hb Bool.false_ne_true
    rw [ha0, listStrLtB_cons_same]
    rw [if_pos hw, if_neg hs]
    exact listStrLtB_cons_of_lt _ _ _ _ hns hb
  · have ha0 : e1.hostname = e2.hostname := hagree 0 (by omega)
    have ha1 : portStr e1.port = portStr e2.port := hagree 1 (by omega)
    have hs : e1.database ≠ starS := hspec
    have hw : e2.database = starS := hwild
    have hb : strLtB e1.database sentinelS = true := hbelow
    have hns : e1.database ≠ sentinelS := by
      intro he
      rw [he, strLtB_irrefl] at hb
      exact absurd hb Bool.false_ne_true
    rw [ha0, listStrLtB_cons_same, ha1, listStrLtB_cons_same]
    rw [if_pos hw, if_neg hs]
    exact listStrLtB_cons_of_lt _ _ _ _ hns hb
  · have ha0 : e1.hostname = e2.hostname := hagree 0 (by omega)
    have ha1 : portStr e1.port = portStr e2.port := hagree 1 (by omega)
    have ha2 : e1.database = e2.database := hagree 2 (by omega)
    have hs : e1.username ≠ starS := hspec
    have hw : e2.username = starS := hwild
    have hb : strLtB e1.username sentinelS = true := hbelow
    have hns : e1.username ≠ sentinelS := by
      intro he
      rw [he, strLtB_irrefl] at hb
      exact absurd hb Bool.false_ne_true
    rw [ha0, listStrLtB_cons_same, ha1, listStrLtB_cons_same, ha2,
      listStrLtB_cons_same]
    rw [if_pos hw, if_neg hs]
    exact listStrLtB_cons_of_lt _ _ _ _ hns hb

theorem pairwise_entriesOf_flatten :
    ∀ qs : List (PassLine × List PyStr),
      List.Pairwise (fun a b => passLeB a b = true) qs →
      List.Pairwise (fun a b : PassEntry => precision a ≤ precision b)
        (entriesOf ((qs.map blockOf).flatten))
  | [], _ => List.Pairwise.nil
  | q :: qs, hp => by
    rw [List.pairwise_cons] at hp
    obtain ⟨hall, hqs⟩ := hp
    rw [List.map_cons, List.flatten_cons, entriesOf_append, entriesOf_blockOf]
    cases hq : q.1 with
    | comment c =>
      rw [List.nil_append]
      exact pairwise_entriesOf_flatten qs hqs
    | entry e =>
      rw [List.singleton_append, List.pairwise_cons]
      refine ⟨?_, pairwise_entriesOf_flatten qs hqs⟩
      intro b hb
      have hbmem : PassLine.entry b ∈ (qs.map blockOf).flatten :=
        (mem_entriesOf b _).mp hb
      obtain ⟨cs, hcs⟩ := entry_mem_flatten b qs hbmem
      have hle := hall (PassLine.entry b, cs) hcs
      have hle2 : passLeB (PassLine.entry e, q.2) (PassLine.entry b, cs) =
          true := by
        rw [show (PassLine.entry e, q.2) = q from Prod.ext hq.symm rfl]
        exact hle
      exact prec_le_of_passLe e b q.2 cs hle2

/-! ## Claim C10: `as_dict` hides commented entries, item access does not -/

/-- Lookup misses when the key is absent. -/
theorem dictGet?_eq_none_of_not_mem {V : Type} (l : List (PyStr × V)) (k : PyStr)
    (h : k ∉ l.map Prod.fst) : dictGet? l k = none := by
  induction l with
  | nil => rfl
  | cons p rest ih =>
    simp only [List.map_cons, List.mem_cons, not_or] at h
    simp only [dictGet?]
    rw [if_neg (fun hh => h.1 hh.symm)]
    exact ih h.2

/-- C10: with distinct entry names (an invariant of the Python dict),
`as_dict()` binds a name exactly when its entry is uncommented (to the
entry's value), while `conf[name]` and attribute access return the value of
whatever entry is stored, commented or not. -/
theorem C10_as_dict_omits_commented (conf : Configuration) (name : PyStr)
    (hnd : (conf.entries.map Prod.fst).Nodup) :
    dictGet? (asDict conf) name =
      (dictGet? conf.entries name).bind
        (fun e => if e.commented then none else some e.value) ∧
    confGetItem conf name = (dictGet? conf.entries name).map Entry.value ∧
    confGetAttr conf name = (dictGet? conf.entries name).map Entry.value := by
  refine ⟨?_, rfl, rfl⟩
  have main : ∀ (l : List (PyStr × Entry)), (l.map Prod.fst).Nodup →
      dictGet? ((l.filter (fun p => !p.2.commented)).map (fun p => (p.1, p.2.value))) name =
        (dictGet? l name).bind (fun e => if e.commented then none else some e.value) := by
    intro l
    induction l with
    | nil => intro _; rfl
    | cons p rest ih =>
      intro hnd
      rw [List.map_cons, List.nodup_cons] at hnd
      obtain ⟨k, e⟩ := p
      by_cases hk : k = name
      · subst hk
        cases hc : e.commented with
        | false =>
          simp [dictGet?, List.filter_cons, hc]
        | true =>
          simp only [List.filter_cons, hc, Bool.not_true, Bool.false_eq_true, if_false,
            dictGet?, if_pos rfl, Option.bind_some]
          rw [dictGet?_eq_none_of_not_mem _ k]
          · simp [hc]
          · intro hmem
            obtain ⟨q, hq, hqeq⟩ := List.mem_map.mp hmem
            obtain ⟨q2, hq2, hq2eq⟩ := List.mem_map.mp hq
            exact hnd.1 (List.mem_map.mpr
              ⟨q2, List.mem_of_mem_filter hq2, by rw [← hq2eq] at hqeq; exact hqeq⟩)
      · cases hc : e.commented with
        | false =>
          simp only [List.filter_cons, hc, Bool.not_false, if_pos, List.map_cons, dictGet?]
          rw [if_neg hk, if_neg hk]
          exact ih hnd.2
        | true =>
          simp only [List.filter_cons, hc, Bool.not_true, Bool.false_eq_true, if_false,
            dictGet?]
          rw [if_neg hk]
          exact ih hnd.2
  exact main conf.entries hnd

/-- Witness for `C10_as_dict_omits_commented`: a configuration holding one
uncommented `port` entry and one commented `ssl` entry — `ssl` is absent from
`as_dict` but still readable through item access. -/
theorem C10_as_dict_omits_commented_witness :
    ((List.map Prod.fst (Configuration.entries
        ⟨[], [(pstr "port", ⟨pstr "port", .int 5432, false, none, pstr "port=5432\n"⟩),
              (pstr "ssl", ⟨pstr "ssl", .bool true, true, none, pstr "#ssl = on\n"⟩)],
         none⟩)).Nodup) ∧
    dictGet? (asDict
        ⟨[], [(pstr "port", ⟨pstr "port", .int 5432, false, none, pstr "port=5432\n"⟩),
              (pstr "ssl", ⟨pstr "ssl", .bool true, true, none, pstr "#ssl = on\n"⟩)],
         none⟩) (pstr "ssl") =
      (dictGet? (Configuration.entries
        ⟨[], [(pstr "port", ⟨pstr "port", .int 5432, false, none, pstr "port=5432\n"⟩),
              (pstr "ssl", ⟨pstr "ssl", .bool true, true, none, pstr "#ssl = on\n"⟩)],
         none⟩) (pstr "ssl")).bind
        (fun e => if e.commented then none else some e.value) :=
  ⟨by decide,
   (C10_as_dict_omits_commented
     ⟨[], [(pstr "port", ⟨pstr "port", .int 5432, false, none, pstr "port=5432\n"⟩),
           (pstr "ssl", ⟨pstr "ssl", .bool true, true, none, pstr "#ssl = on\n"⟩)],
      none⟩ (pstr "ssl") (by decide)).1⟩

/-! ## Claim C8: transactional edit rolls back on an exception -/

/-- C8: when the body of `Configuration.edit`'s context manager raises, the
exception is re-raised and the configuration is returned exactly as it was:
no reconciliation (adds, updates or deletions) happens, because the body only
ever touched the copied proxy. -/
theorem C8_edit_rollback (conf : Configuration)
    (body : List (PyStr × Entry) → Except PyErr (List (PyStr × Entry))) (e : PyErr)
    (h : body conf.entries = .error e) :
    confEdit conf body = (conf, some e) ∧
    (confEdit conf body).1.entries = conf.entries ∧
    (confEdit conf body).1.lines = conf.lines := by
  unfold confEdit
  rw [h]
  exact ⟨rfl, rfl, rfl⟩

/-- Witness for `C8_edit_rollback`: a body that deletes every entry and then
fails leaves the parsed three-line configuration untouched. -/
theorem C8_edit_rollback_witness :
    confEdit c4Result (fun _ => .error (.valueError (pstr "boom"))) =
      (c4Result, some (.valueError (pstr "boom"))) :=
  (C8_edit_rollback c4Result (fun _ => .error (.valueError (pstr "boom")))
    (.valueError (pstr "boom")) rfl).1

/-! ## Claim C6: include cycles are detected -/

/-- C6: re-encountering an already-visited resolved path raises
`RuntimeError("loop detected in include directive about '<path>'")`, and both
a direct self-include and a transitive two-file cycle terminate with that
error under every sufficient fuel (the walk never runs forever: each step
consumes fuel, and the result is the loop error independently of how much
more fuel is supplied). -/
theorem C6_include_loop_detected :
    (∀ (fs : FS) (fuel : Nat) (conf : Configuration) (path ctxPath : PyStr)
      (processed : List PyStr),
      fsExists fs (resolveInc fs ctxPath path) = true →
      processed.contains (resolveInc fs ctxPath path) = true →
      parseIncGo fs (fuel + 1) conf (.directive path .include) ctxPath processed =
        .error (.runtimeError (loopMsg (resolveInc fs ctxPath path)))) ∧
    (∀ n : Nat, parseConfFile fsSelfLoop (n + 4) (pstr "/a.conf") =
      .error (.runtimeError (loopMsg (pstr "/a.conf")))) ∧
    (∀ n : Nat, parseConfFile fsTransLoop (n + 6) (pstr "/b.conf") =
      .error (.runtimeError (loopMsg (pstr "/c.conf")))) := by
  refine ⟨?_, ?_, ?_⟩
  · intro fs fuel conf path ctxPath processed hex hmem
    simp only [parseIncGo]
    rw [hex, hmem]
    simp
  · intro n
    rfl
  · intro n
    rfl

/-- Witness for `C6_include_loop_detected`: the nested re-encounter of
`/a.conf` inside the self-including file. -/
theorem C6_include_loop_detected_witness :
    parseIncGo fsSelfLoop 1 (emptyConf none) (.directive (pstr "/a.conf") .include)
        (pstr "/a.conf") [pstr "/a.conf"] =
      .error (.runtimeError (loopMsg (pstr "/a.conf"))) := by
  have h := C6_include_loop_detected.1 fsSelfLoop 0 (emptyConf none) (pstr "/a.conf")
    (pstr "/a.conf") [pstr "/a.conf"] (by decide) (by decide)
  exact h

/-! ## Claim C7: included entries merge, included lines do not -/

/-- C7: resolving an `include` merges the included file's (fully resolved)
entries into the including configuration's entries dict via `dict.update`
(later wins) while its `lines` stay exactly as they were; concretely, parsing
`/postgresql.conf` of `fsInc` shows the included entries in `as_dict()`, the
top file's own later `max_connections` line overriding the included value,
and `save` emitting only the top file's three lines. -/
theorem C7_include_merges_entries_not_lines :
    (∀ (fs : FS) (fuel : Nat) (conf : Configuration) (path ctxPath : PyStr)
      (processed : List PyStr) (content : List PyStr) (sub : Configuration)
      (proc2 : List PyStr),
      fsFile? fs (resolveInc fs ctxPath path) = some content →
      processed.contains (resolveInc fs ctxPath path) = false →
      parseIncGo fs fuel (emptyConf (some (resolveInc fs ctxPath path)))
        (.fileLines content) (resolveInc fs ctxPath path)
        (resolveInc fs ctxPath path :: processed) = .ok (sub, proc2) →
      parseIncGo fs (fuel + 1) conf (.directive path .include) ctxPath processed =
        .ok (⟨conf.lines, dictUpdate conf.entries sub.entries, conf.path⟩, proc2)) ∧
    (∀ n : Nat, parseConfFile fsInc (n + 6) (pstr "/postgresql.conf") = .ok incResult) ∧
    dictGet? (asDict incResult) (pstr "shared_buffers") = some (.str (pstr "123MG")) ∧
    dictGet? (asDict incResult) (pstr "max_connections") = some (.int 100) ∧
    dictGet? (asDict incResult) (pstr "cluster_name") = some (.str (pstr "foo")) ∧
    incResult.lines = (fsFile? fsInc (pstr "/postgresql.conf")).getD [] ∧
    confSave incResult = ((fsFile? fsInc (pstr "/postgresql.conf")).getD []).flatten := by
  refine ⟨?_, ?_, by decide, by decide, by decide, by decide, by decide⟩
  · intro fs fuel conf path ctxPath processed content sub proc2 hfile hmem hsub
    have hex : fsExists fs (resolveInc fs ctxPath path) = true := by
      unfold fsExists fsIsFile
      rw [hfile]
      rfl
    simp only [parseIncGo]
    rw [hex, hmem, hfile]
    simp only [Bool.not_true, Bool.false_eq_true, if_false, hsub, Bind.bind, Except.bind,
      pure, Except.pure]
  · intro n
    rfl

/-- Witness for `C7_include_merges_entries_not_lines`: the include directive
of the `fsInc` scenario itself, resolved from the top file. -/
theorem C7_include_merges_entries_not_lines_witness :
    parseIncGo fsInc 5 ⟨[pstr "unrelated = 1\n"], [], some (pstr "/postgresql.conf")⟩
        (.directive (pstr "/included.conf") .include) (pstr "/postgresql.conf") [] =
      .ok (⟨[pstr "unrelated = 1\n"],
        [(pstr "shared_buffers",
          ⟨pstr "shared_buffers", .str (pstr "123MG"), false, none,
           pstr "shared_buffers = 123MG\n"⟩),
         (pstr "max_connections",
          ⟨pstr "max_connections", .int 45, false, none, pstr "max_connections=45\n"⟩)],
        some (pstr "/postgresql.conf")⟩, [pstr "/included.conf"]) := by
  have h := C7_include_merges_entries_not_lines.1 fsInc 4
    ⟨[pstr "unrelated = 1\n"], [], some (pstr "/postgresql.conf")⟩
    (pstr "/included.conf") (pstr "/postgresql.conf") []
    ((fsFile? fsInc (pstr "/included.conf")).getD [])
    ⟨[pstr "shared_buffers = 123MG\n", pstr "max_connections=45\n"],
     [(pstr "shared_buffers",
       ⟨pstr "shared_buffers", .str (pstr "123MG"), false, none,
        pstr "shared_buffers = 123MG\n"⟩),
      (pstr "max_connections",
       ⟨pstr "max_connections", .int 45, false, none, pstr "max_connections=45\n"⟩)],
     some (pstr "/included.conf")⟩
    [pstr "/included.conf"] (by decide) (by decide) (by decide)
  exact h

/-! ## Claim C3: the serialize / parse_value round trip -/

/-- C3, counterexample: the string value `a''b` — itself produced by
`parse_value` (first conjunct), hence inside the claimed domain — serializes
to `'a''b'` (the doubled quote is *not* escaped, because `serialize` skips
escaping whenever the value already contains `''` or `\'`), which parses
back to `a'b`, a different value.  So the semantic round trip fails on
producible values. -/
theorem C3_counterexample :
    parse_value (pstr "a" ++ [qc, qc] ++ pstr "b") =
      .ok (.str (pstr "a" ++ [qc, qc] ++ pstr "b")) ∧
    parse_value (serializeValue (.str (pstr "a" ++ [qc, qc] ++ pstr "b"))) =
      .ok (.str (pstr "a" ++ [qc] ++ pstr "b")) ∧
    Value.str (pstr "a" ++ [qc] ++ pstr "b") ≠
      .str (pstr "a" ++ [qc, qc] ++ pstr "b") :=
  ⟨by decide, by decide, by decide⟩

/-- C3 (amended): on the `roundTrippable` domain — booleans, integers,
nonnegative whole-millisecond timedeltas, and strings that the post-quote
decoder fixes, are not quote-wrapped, and contain neither `''` nor `\'` —
decoding the serialized form yields the value back:
`parse_value (serialize v) = v`. -/
theorem C3_roundtrip (v : Value) (h : roundTrippable v) :
    parse_value (serializeValue v) = .ok v := by
  cases v with
  | bool b => cases b <;> decide
  | int n => exact parse_value_intRepr n
  | float tok => exact (h : False).elim
  | str s =>
    obtain ⟨hquoted, hsq, hsb, hpq⟩ := h
    simp only [serializeValue]
    rw [if_neg (show ¬(([qc].isPrefixOf s && [qc].isSuffixOf s) = true) from by
      rw [hquoted]; exact Bool.false_ne_true)]
    rw [if_neg (show ¬((hasSub [qc, qc] s || hasSub [bs, qc] s) = true) from by
      rw [hsq, hsb]; exact Bool.false_ne_true)]
    rw [parse_value_quoted]
    rw [escape_unescape s]
    rw [pyReplace_no_occ s bs [qc] [qc] hsb]
    rw [hpq]
  | td t =>
    obtain ⟨hU0, hUdvd⟩ := h
    have hdays : t.days = t.usec / 86400000000 := by
      rw [TimeDelta.days, Int.fdiv_eq_ediv _ (by norm_num)]
    have hsecsA : t.seconds = t.usec % 86400000000 / 1000000 := by
      rw [TimeDelta.seconds, Int.fmod_eq_emod _ (by norm_num),
        Int.fdiv_eq_ediv _ (by norm_num)]
    have hmic : t.microseconds = t.usec % 1000000 := by
      rw [TimeDelta.microseconds, Int.fmod_eq_emod _ (by norm_num)]
    have hS : t.days * 86400 + t.seconds =
        t.usec / 86400000000 * 86400 + t.usec % 86400000000 / 1000000 := by
      rw [hdays, hsecsA]
    simp only [serializeValue]
    by_cases hmz : t.microseconds = 0
    · rw [if_neg (fun hc => hc hmz)]
      rw [hmic] at hmz
      by_cases h86 : (t.days * 86400 + t.seconds).fmod 86400 = 0
      · have hp1 : (tdPickGo tdUnitMap (t.days * 86400 + t.seconds)).1 =
            pstr "d" := by
          simp [tdPickGo, tdUnitMap, h86]
        have hp2 : (tdPickGo tdUnitMap (t.days * 86400 + t.seconds)).2 =
            (t.days * 86400 + t.seconds).fdiv 86400 := by
          simp [tdPickGo, tdUnitMap, h86]
        rw [hp1, hp2]
        rw [Int.fmod_eq_emod _ (by norm_num), hS] at h86
        have hV0 : 0 ≤ (t.days * 86400 + t.seconds).fdiv 86400 := by
          rw [Int.fdiv_eq_ediv _ (by norm_num), hS]
          omega
        rw [show intRepr ((t.days * 86400 + t.seconds).fdiv 86400) =
            natRepr ((t.days * 86400 + t.seconds).fdiv 86400).toNat from by
          rw [intRepr, if_neg (not_lt.mpr hV0)]]
        rw [td_token_d]
        rw [show ((((t.days * 86400 + t.seconds).fdiv 86400).toNat : Int) *
            86400000000 : Int) = t.usec from by
          rw [Int.toNat_of_nonneg hV0, Int.fdiv_eq_ediv _ (by norm_num), hS]
          omega]
      · by_cases h36 : (t.days * 86400 + t.seconds).fmod 3600 = 0
        · have hp1 : (tdPickGo tdUnitMap (t.days * 86400 + t.seconds)).1 =
              pstr "h" := by
            simp [tdPickGo, tdUnitMap, h86, h36]
          have hp2 : (tdPickGo tdUnitMap (t.days * 86400 + t.seconds)).2 =
              (t.days * 86400 + t.seconds).fdiv 3600 := by
            simp [tdPickGo, tdUnitMap, h86, h36]
          rw [hp1, hp2]
          rw [Int.fmod_eq_emod _ (by norm_num), hS] at h36
          have hV0 : 0 ≤ (t.days * 86400 + t.seconds).fdiv 3600 := by
            rw [Int.fdiv_eq_ediv _ (by norm_num), hS]
            omega
          rw [show intRepr ((t.days * 86400 + t.seconds).fdiv 3600) =
              natRepr ((t.days * 86400 + t.seconds).fdiv 3600).toNat from by
            rw [intRepr, if_neg (not_lt.mpr hV0)]]
          rw [td_token_h]
          rw [show ((((t.days * 86400 + t.seconds).fdiv 3600).toNat : Int) *
              3600000000 : Int) = t.usec from by
            rw [Int.toNat_of_nonneg hV0, Int.fdiv_eq_ediv _ (by norm_num), hS]
            omega]
        · by_cases h60 : (t.days * 86400 + t.seconds).fmod 60 = 0
          · have hp1 : (tdPickGo tdUnitMap (t.days * 86400 + t.seconds)).1 =
                pstr " min" := by
              simp [tdPickGo, tdUnitMap, h86, h36, h60]
            have hp2 : (tdPickGo tdUnitMap (t.days * 86400 + t.seconds)).2 =
                (t.days * 86400 + t.seconds).fdiv 60 := by
              simp [tdPickGo, tdUnitMap, h86, h36, h60]
            rw [hp1, hp2]
            rw [Int.fmod_eq_emod _ (by norm_num), hS] at h60
            have hV0 : 0 ≤ (t.days * 86400 + t.seconds).fdiv 60 := by
              rw [Int.fdiv_eq_ediv _ (by norm_num), hS]
              omega
            rw [show intRepr ((t.days * 86400 + t.seconds).fdiv 60) =
                natRepr ((t.days * 86400 + t.seconds).fdiv 60).toNat from by
              rw [intRepr, if_neg (not_lt.mpr hV0)]]
            rw [td_token_min]
            rw [show ((((t.days * 86400 + t.seconds).fdiv 60).toNat : Int) *
                60000000 : Int) = t.usec from by
              rw [Int.toNat_of_nonneg hV0, Int.fdiv_eq_ediv _ (by norm_num), hS]
              omega]
          · have hp1 : (tdPickGo tdUnitMap (t.days * 86400 + t.seconds)).1 =
                pstr "s" := by
              simp [tdPickGo, tdUnitMap, h86, h36, h60, Int.fmod_one]
            have hp2 : (tdPickGo tdUnitMap (t.days * 86400 + t.seconds)).2 =
                t.days * 86400 + t.seconds := by
              simp [tdPickGo, tdUnitMap, h86, h36, h60, Int.fmod_one,
                Int.fdiv_one]
            rw [hp1, hp2]
            have hV0 : 0 ≤ t.days * 86400 + t.seconds := by
              rw [hS]
              omega
            rw [show intRepr (t.days * 86400 + t.seconds) =
                natRepr (t.days * 86400 + t.seconds).toNat from by
              rw [intRepr, if_neg (not_lt.mpr hV0)]]
            rw [td_token_s]
            rw [show (((t.days * 86400 + t.seconds).toNat : Int) *
                1000000 : Int) = t.usec from by
              rw [Int.toNat_of_nonneg hV0, hS]
              omega]
    · rw [if_pos hmz]
      rw [hmic] at hmz
      have hN0 : 0 ≤ (t.days * 86400 + t.seconds) * 1000 +
          t.microseconds.fdiv 1000 := by
        rw [hmic, Int.fdiv_eq_ediv _ (by norm_num), hS]
        omega
      rw [show intRepr ((t.days * 86400 + t.seconds) * 1000 +
          t.microseconds.fdiv 1000) =
          natRepr ((t.days * 86400 + t.seconds) * 1000 +
            t.microseconds.fdiv 1000).toNat from by
        rw [intRepr, if_neg (not_lt.mpr hN0)]]
      rw [td_token_ms]
      rw [show ((((t.days * 86400 + t.seconds) * 1000 +
          t.microseconds.fdiv 1000).toNat : Int) * 1000 : Int) = t.usec from by
        rw [Int.toNat_of_nonneg hN0, hmic, Int.fdiv_eq_ediv _ (by norm_num), hS]
        omega]

theorem C3_roundtrip_witness :
    roundTrippable (.str (pstr "foo")) ∧
    parse_value (serializeValue (.str (pstr "foo"))) = .ok (.str (pstr "foo")) :=
  ⟨⟨by decide, by decide, by decide, by decide⟩,
    C3_roundtrip (.str (pstr "foo")) ⟨by decide, by decide, by decide, by decide⟩⟩

/-! ## Claim C9: `PassFile.sort` ordering -/

/-- C9, counterexample: commented entries do *not* sort by precision.  Both
lines are comments that parse as commented entries (`# *:*:*:*:p`, precision
4, and `# a:1:d:u:p`, precision 0), yet `sort()` leaves them in place:
`PassComment.__lt__` returns `False` whenever the right operand is another
comment, so comment-vs-comment never compares and the stable sort keeps the
precision-4 line first. -/
theorem C9_counterexample :
    sortLines [PassLine.comment (pstr "# *:*:*:*:p"),
        PassLine.comment (pstr "# a:1:d:u:p")] =
      [PassLine.comment (pstr "# *:*:*:*:p"),
        PassLine.comment (pstr "# a:1:d:u:p")] ∧
    (commentEntry? (pstr "# *:*:*:*:p")).map precision = some 4 ∧
    (commentEntry? (pstr "# a:1:d:u:p")).map precision = some 0 :=
  ⟨by decide, by decide, by decide⟩

/-- C9 (amended): for a `.pgpass` file whose comment lines are all pure
comments (none parses as a commented entry), whose entries' four match
fields each sort strictly below the `chr(0xFF)` sentinel, and which has at
least one entry, `PassFile.sort`:
(1) emits a permutation of the original `(entry, comment-block)` groups,
ordered by the Python tuple comparison, each comment block glued
immediately above the entry it preceded before sorting;
(2) lists the entries in ascending precision (wildcard count); and
(3) within an equal-precision tier, an entry specific in some field comes
before every entry that wildcards that field and agrees on the earlier
fields.  (Commented entries must be excluded — see the counterexample —
and fields at or above `chr(0xFF)` would defeat the sentinel.) -/
theorem C9_sort_order (ls : List PassLine)
    (hpure : ∀ c, PassLine.comment c ∈ ls → commentEntry? c = none)
    (hsent : ∀ e, PassLine.entry e ∈ ls →
      ∀ f ∈ asTuple4 e, strLtB f sentinelS = true)
    (hent : ∃ e, PassLine.entry e ∈ ls) :
    (∃ qs, qs.Perm (pairsOf ls).1 ∧
      List.Pairwise (fun a b => passLeB a b = true) qs ∧
      sortLines ls = (qs.map blockOf).flatten) ∧
    List.Pairwise (fun a b : PassEntry => precision a ≤ precision b)
      (entriesOf (sortLines ls)) ∧
    (∀ e1 e2 i, i < 4 → precision e1 = precision e2 →
      (∀ j, j < i → (asTuple4 e1).getD j [] = (asTuple4 e2).getD j []) →
      (asTuple4 e1).getD i [] ≠ starS →
      (asTuple4 e2).getD i [] = starS →
      strLtB ((asTuple4 e1).getD i []) sentinelS = true →
      ∀ pre post, sortLines ls = pre ++ PassLine.entry e2 :: post →
        PassLine.entry e1 ∉ post) := by
  have hSall : ∀ q ∈ (pairsOf ls).1,
      ∃ e, q.1 = PassLine.entry e ∧
        ∀ f ∈ asTuple4 e, strLtB f sentinelS = true := by
    intro q hq
    rcases pairsOfAux_heads ls [] q hq with ⟨e, he, hm⟩ | ⟨c, hc, hm, hs⟩
    · exact ⟨e, he, hsent e hm⟩
    · rw [hpure c hm] at hs
      exact absurd hs (by decide)
  have htot : ∀ a b : PassLine × List PyStr,
      (∃ e, a.1 = PassLine.entry e ∧
        ∀ f ∈ asTuple4 e, strLtB f sentinelS = true) →
      (∃ e, b.1 = PassLine.entry e ∧
        ∀ f ∈ asTuple4 e, strLtB f sentinelS = true) →
      passLeB a b = false → passLeB b a = true := by
    rintro a b ⟨ea, hea, hfa⟩ ⟨eb, heb, hfb⟩ h
    have hba2 : pairLtB b a = true := by
      cases hv : pairLtB b a with
      | true => rfl
      | false =>
        simp only [passLeB, hv] at h
        exact absurd h (by decide)
    rw [pairLtB_eq_kcLtB b a eb ea heb hea hfb hfa] at hba2
    have hab : pairLtB a b = false := by
      rw [pairLtB_eq_kcLtB a b ea eb hea heb hfa hfb]
      exact kcLtB_asymm _ _ hba2
    simp [passLeB, hab]
  have htrans : ∀ a b c : PassLine × List PyStr,
      (∃ e, a.1 = PassLine.entry e ∧
        ∀ f ∈ asTuple4 e, strLtB f sentinelS = true) →
      (∃ e, b.1 = PassLine.entry e ∧
        ∀ f ∈ asTuple4 e, strLtB f sentinelS = true) →
      (∃ e, c.1 = PassLine.entry e ∧
        ∀ f ∈ asTuple4 e, strLtB f sentinelS = true) →
      passLeB a b = true → passLeB b c = true → passLeB a c = true := by
    rintro a b c ⟨ea, hea, hfa⟩ ⟨eb, heb, hfb⟩ ⟨ec, hec, hfc⟩ h1 h2
    have hb1 : pairLtB b a = false := by
      cases hv : pairLtB b a with
      | false => rfl
      | true =>
        simp only [passLeB, hv] at h1
        exact absurd h1 (by decide)
    have hb2 : pairLtB c b = false := by
      cases hv : pairLtB c b with
      | false => rfl
      | true =>
        simp only [passLeB, hv] at h2
        exact absurd h2 (by decide)
    rw [pairLtB_eq_kcLtB b a eb ea heb hea hfb hfa] at hb1
    rw [pairLtB_eq_kcLtB c b ec eb hec heb hfc hfb] at hb2
    have hb3 : kcLtB (pairKey c) (pairKey a) = false :=
      le_trans_of_strict kcLtB kcLtB_asymm kcLtB_trans kcLtB_connex
        (pairKey a) (pairKey b) (pairKey c) hb1 hb2
    have hca : pairLtB c a = false := by
      rw [pairLtB_eq_kcLtB c a ec ea hec hea hfc hfa]
      exact hb3
    simp [passLeB, hca]
  obtain ⟨e0, he0⟩ := hent
  have hne : (pairsOf ls).1 ≠ [] := pairsOfAux_ne_nil e0 ls [] he0
  have hie : (pairsOf ls).1.isEmpty = false := by
    cases hp : (pairsOf ls).1 with
    | nil => exact absurd hp hne
    | cons a l => rfl
  have hsl : sortLines ls =
      ((stableSortLe passLeB (pairsOf ls).1).map blockOf).flatten := by
    simp only [sortLines]
    rw [if_neg (by rw [hie]; simp)]
  have hPW : List.Pairwise (fun a b => passLeB a b = true)
      (stableSortLe passLeB (pairsOf ls).1) :=
    pairwise_stableSortLe passLeB
      (fun q => ∃ e, q.1 = PassLine.entry e ∧
        ∀ f ∈ asTuple4 e, strLtB f sentinelS = true)
      htot htrans _ hSall
  refine ⟨⟨stableSortLe passLeB (pairsOf ls).1,
      stableSortLe_perm passLeB _, hPW, hsl⟩, ?_, ?_⟩
  · rw [hsl]
    exact pairwise_entriesOf_flatten _ hPW
  · intro e1 e2 i hi hprec hagree hspec hwild hbelow pre post heq he1post
    rw [hsl] at heq
    obtain ⟨pre2, cs2, post2, hqs, hpost⟩ := flatten_split e2 _ pre post heq
    rw [hpost] at he1post
    obtain ⟨cs1, hc1⟩ := entry_mem_flatten e1 post2 he1post
    have hPW2 := hPW
    rw [hqs] at hPW2
    have hcons : List.Pairwise (fun a b => passLeB a b = true)
        ((PassLine.entry e2, cs2) :: post2) :=
      (List.pairwise_append.mp hPW2).2.1
    have hrel : passLeB (PassLine.entry e2, cs2) (PassLine.entry e1, cs1) =
        true := List.rel_of_pairwise_cons hcons hc1
    have hTne : asTuple4 e1 ≠ asTuple4 e2 := by
      intro hT
      apply hspec
      rw [show (asTuple4 e1).getD i [] = (asTuple4 e2).getD i [] from by
        rw [hT]]
      exact hwild
    have hlt : pairLtB (PassLine.entry e1, cs1) (PassLine.entry e2, cs2) =
        true := by
      simp only [pairLtB, passLineEqB, passLineLtB]
      rw [if_neg (by rw [decide_eq_false hTne]; exact Bool.false_ne_true)]
      exact keyLt_of_wildcard e1 e2 i hi hprec hagree hspec hwild hbelow
    simp only [passLeB, hlt] at hrel
    exact absurd hrel (by decide)

theorem C9_sort_order_witness :
    (∀ c, PassLine.comment c ∈ c9File → commentEntry? c = none) ∧
    (∀ e, PassLine.entry e ∈ c9File →
      ∀ f ∈ asTuple4 e, strLtB f sentinelS = true) ∧
    (∃ e, PassLine.entry e ∈ c9File) ∧
    List.Pairwise (fun a b : PassEntry => precision a ≤ precision b)
      (entriesOf (sortLines c9File)) := by
  have h1 : ∀ c, PassLine.comment c ∈ c9File → commentEntry? c = none := by
    intro c hc
    rcases List.mem_cons.mp hc with h | h
    · exact PassLine.noConfusion h
    · rcases List.mem_cons.mp h with h | h
      · rw [PassLine.comment.inj h]
        decide
      · exact PassLine.noConfusion (List.mem_singleton.mp h)
  have h2 : ∀ e, PassLine.entry e ∈ c9File →
      ∀ f ∈ asTuple4 e, strLtB f sentinelS = true := by
    intro e he f hf
    rcases List.mem_cons.mp he with h | h
    · rw [PassLine.entry.inj h] at hf
      simp only [asTuple4, c9A, portStr, List.mem_cons, List.not_mem_nil,
        or_false] at hf
      rcases hf with h2 | h2 | h2 | h2 <;> (rw [h2]; decide)
    · rcases List.mem_cons.mp h with h | h
      · exact PassLine.noConfusion h
      · rw [PassLine.entry.inj (List.mem_singleton.mp h)] at hf
        simp only [asTuple4, c9B, portStr, List.mem_cons, List.not_mem_nil,
          or_false] at hf
        rcases hf with h2 | h2 | h2 | h2 <;> (rw [h2]; decide)
  have h3 : ∃ e, PassLine.entry e ∈ c9File := ⟨c9A, by decide⟩
  exact ⟨h1, h2, h3, (C9_sort_order c9File h1 h2 h3).2.1⟩

end PgToolkit
